import Mathlib

/-! # Retrieval-and-rerank pipeline of go-rag-chatbot-prj

A shallow embedding of `reranker/reranker.go` and of the pipeline handler
`handler/handlers.go` (`RagChatting`), with the properties of the written
specification stated over it.

Modelling conventions.

* A Go `string` that holds text is a Lean `String` (a sequence of Unicode
  scalar values): every text that reaches the reranker was decoded from JSON or
  read from a `text` column, so it is valid UTF-8.  Where the code works on the
  bytes of a string (`truncate`, `buildPrompt`) the model works on the UTF-8
  encoding, a `List UInt8`.
* A finite `float64` is the rational number it denotes.  `roundFloat64` is
  IEEE-754 binary64 rounding (to nearest, ties to even); a floating-point
  operation is the exact operation followed by `roundFloat64`.  NaN and the
  infinities are not modelled.
* A Go function returning `(value, error)` that may also stop with a run-time
  panic returns a `GoResult`.
* The network exchanges are inputs: the scoring collaborator is a function from
  the prompt to what lines 73-110 of `Rerank` obtain from it.
-/

namespace RagChatbot

/-! ## float64 -/

/-- Nearest integer to `q`, a tie going to the even neighbour. -/
def roundHalfEven (q : ℚ) : ℤ :=
  let f := ⌊q⌋
  let r := q - f
  if r < 1 / 2 then f
  else if 1 / 2 < r then f + 1
  else if f % 2 = 0 then f else f + 1

/-- The number of halvings that bring `n` below 2, at most `fuel` of them. -/
def floorLog2Aux : Nat → Nat → Nat
  | 0, _ => 0
  | fuel + 1, n => if 2 ≤ n then floorLog2Aux fuel (n / 2) + 1 else 0

/-- The position of the leading bit of `n`: the `k` with `2^k ≤ n < 2^(k+1)`
for `n > 0`. -/
def floorLog2 (n : Nat) : Nat :=
  floorLog2Aux n n

/-- The binary exponent of a positive rational `a`: the `e` with
`2^e ≤ a < 2^(e+1)`, found from the leading bits of numerator and
denominator. -/
def binaryExponent (a : ℚ) : ℤ :=
  let k : ℤ := (floorLog2 a.num.natAbs : ℤ) - (floorLog2 a.den : ℤ)
  if (2 : ℚ) ^ k ≤ a then k else k - 1

/-- Exponent of the unit in the last place of the binary64 number nearest to
a positive `a`: 52 below the binary exponent of `a` for a normal number,
`-1074` for a subnormal one. -/
def ulpExponent (a : ℚ) : ℤ :=
  max (binaryExponent a) (-1022) - 52

/-- Binary64 rounding of a magnitude `a ≥ 0`: the multiple of the unit in the
last place nearest to `a`, ties to even. -/
def roundMagnitude (a : ℚ) : ℚ :=
  if a = 0 then 0
  else (roundHalfEven (a / (2 : ℚ) ^ ulpExponent a) : ℚ) * (2 : ℚ) ^ ulpExponent a

/-- IEEE-754 binary64 rounding (to nearest, ties to even) of a rational within
the finite range; rounding is symmetric in the sign. -/
def roundFloat64 (q : ℚ) : ℚ :=
  if q < 0 then -roundMagnitude (-q) else roundMagnitude q

/-- Float64 addition `a + b`. -/
def f64add (a b : ℚ) : ℚ := roundFloat64 (a + b)

/-- Float64 subtraction `a - b`. -/
def f64sub (a b : ℚ) : ℚ := roundFloat64 (a - b)

/-- Float64 multiplication `a * b`. -/
def f64mul (a b : ℚ) : ℚ := roundFloat64 (a * b)

/-- Float64 division `a / b`. -/
def f64div (a b : ℚ) : ℚ := roundFloat64 (a / b)

/-- The conversion `float64(n)` of an `int`. -/
def f64ofInt (n : ℤ) : ℚ := roundFloat64 n

/-! ## Text -/

/-- The UTF-8 encoding of a text: the bytes of the Go string. -/
def utf8 (s : String) : List UInt8 :=
  s.toList.flatMap String.utf8EncodeChar

/-- The double quote `"`. -/
def chDoubleQuote : Char := Char.ofNat 34

/-- The single quote. -/
def chSingleQuote : Char := Char.ofNat 39

/-- The backquote. -/
def chBackQuote : Char := Char.ofNat 96

/-- The backslash. -/
def chBackslash : Char := Char.ofNat 92

/-- The opening brace. -/
def chOpenBrace : Char := Char.ofNat 123

/-- The closing brace. -/
def chCloseBrace : Char := Char.ofNat 125

/-- Go's `unicode.IsSpace`: the code points with the Unicode White_Space
property. -/
def unicodeIsSpace (c : Char) : Bool :=
  let n := c.toNat
  (9 ≤ n && n ≤ 13) || n == 32 || n == 0x85 || n == 0xA0 || n == 0x1680 ||
  (0x2000 ≤ n && n ≤ 0x200A) || n == 0x2028 || n == 0x2029 || n == 0x202F ||
  n == 0x205F || n == 0x3000

/-- Remove from the end of `cs` the characters that satisfy `p`. -/
def dropWhileEnd (p : Char → Bool) (cs : List Char) : List Char :=
  (cs.reverse.dropWhile p).reverse

/-- Go's `strings.TrimSpace`: strip leading and trailing white space. -/
def trimSpace (s : String) : String :=
  String.mk (dropWhileEnd unicodeIsSpace (s.toList.dropWhile unicodeIsSpace))

/-- Membership in the cutset of line 114, the three quote characters. -/
def isQuoteChar (c : Char) : Bool :=
  c == chDoubleQuote || c == chSingleQuote || c == chBackQuote

/-- Go's `strings.Trim(s, cutset)` for the cutset of line 114. -/
def trimQuotes (s : String) : String :=
  String.mk (dropWhileEnd isQuoteChar (s.toList.dropWhile isQuoteChar))

/-- The cleanup step of `Rerank`, lines 113-114. -/
def cleanResponse (response : String) : String :=
  trimQuotes (trimSpace response)

/-! ## encoding/json

`json.Unmarshal(data, &rerankResult)` first checks that `data` is one JSON
value (the scanner of `encoding/json`, a state machine run over the input) and
then stores the value in the `RerankResult`.  The scanner below follows the
step functions of `scanner.go` and, where that scanner only recognises a value,
also builds it.
-/

/-- A JSON value.  A number keeps its literal, as the decoder converts it only
when it knows the Go type it is stored in. -/
inductive JSON where
  | null
  | bool (b : Bool)
  | num (lit : String)
  | str (s : String)
  | arr (items : List JSON)
  | obj (members : List (String × JSON))

/-- An open object or array on the scanner's stack (`parseState`), with the
members read so far. -/
inductive Frame where
  /-- In an object, before a key (`parseObjectKey`). -/
  | objKey (done : List (String × JSON))
  /-- In an object, after a key and before the colon (`parseObjectKey`). -/
  | objColon (done : List (String × JSON)) (key : String)
  /-- In an object, after the colon (`parseObjectValue`). -/
  | objValue (done : List (String × JSON)) (key : String)
  /-- In an object, after a member (`parseObjectValue`). -/
  | objNext (done : List (String × JSON))
  /-- In an array, before an element (`parseArrayValue`). -/
  | arrValue (done : List JSON)
  /-- In an array, after an element (`parseArrayValue`). -/
  | arrNext (done : List JSON)

/-- The step function the scanner is in; the text read so far of a string or a
number is carried in reverse. -/
inductive Step where
  | beginValueOrEmpty
  | beginValue
  | beginStringOrEmpty
  | beginString
  | endValue
  | endTop
  | inString (acc : List Char)
  | inStringEsc (acc : List Char)
  | inStringEscU (acc : List Char) (seen : Nat)
  | neg (acc : List Char)
  | num1 (acc : List Char)
  | num0 (acc : List Char)
  | dot (acc : List Char)
  | dot0 (acc : List Char)
  | expE (acc : List Char)
  | expSign (acc : List Char)
  | exp0 (acc : List Char)
  | lit (rest : List Char) (v : JSON)
  | error

/-- The scanner: its step function, the stack of open containers and the
top-level value once it is complete. -/
structure Scanner where
  step : Step
  stack : List Frame
  top : Option JSON

/-- The scanner's `maxNestingDepth`. -/
def maxNestingDepth : Nat := 10000

/-- JSON white space (`isSpace` of `scanner.go`). -/
def jsonIsSpace (c : Char) : Bool :=
  c == ' ' || c == '\t' || c == '\r' || c == '\n'

/-- A decimal digit. -/
def isDigit (c : Char) : Bool := '0' ≤ c && c ≤ '9'

/-- A hexadecimal digit. -/
def isHexDigit (c : Char) : Bool :=
  ('0' ≤ c && c ≤ '9') || ('a' ≤ c && c ≤ 'f') || ('A' ≤ c && c ≤ 'F')

/-- Value of a hexadecimal digit. -/
def hexValue (c : Char) : Nat :=
  if '0' ≤ c && c ≤ '9' then c.toNat - 48
  else if 'a' ≤ c && c ≤ 'f' then c.toNat - 87
  else c.toNat - 55

/-- The four hexadecimal digits after a `\u`, as a UTF-16 code unit; `none`
when what follows is not `\uXXXX` (`getu4`). -/
def getu4 (cs : List Char) : Option Nat :=
  match cs with
  | b :: u :: h1 :: h2 :: h3 :: h4 :: _ =>
    if b == chBackslash && u == 'u' && isHexDigit h1 && isHexDigit h2 &&
        isHexDigit h3 && isHexDigit h4 then
      some (((hexValue h1 * 16 + hexValue h2) * 16 + hexValue h3) * 16 + hexValue h4)
    else none
  | _ => none

/-- The replacement character U+FFFD. -/
def replacementChar : Char := Char.ofNat 0xFFFD

/-- The text of a string literal with its escapes resolved (`unquote` of
`decode.go`), on the characters between the quotes of a literal the scanner
accepted.  `fuel` bounds the number of characters still to read. -/
def unquoteAux : Nat → List Char → List Char
  | 0, _ => []
  | _ + 1, [] => []
  | fuel + 1, c :: rest =>
    if c == chBackslash then
      match rest with
      | [] => []
      | e :: rest1 =>
        if e == 'u' then
          match getu4 (c :: rest) with
          | none => []
          | some rr =>
            let rest2 := rest1.drop 4
            if 0xD800 ≤ rr && rr < 0xE000 then
              match getu4 rest2 with
              | some rr1 =>
                if rr < 0xDC00 && 0xDC00 ≤ rr1 && rr1 < 0xE000 then
                  Char.ofNat ((rr - 0xD800) * 1024 + (rr1 - 0xDC00) + 0x10000) ::
                    unquoteAux fuel (rest2.drop 6)
                else replacementChar :: unquoteAux fuel rest2
              | none => replacementChar :: unquoteAux fuel rest2
            else Char.ofNat rr :: unquoteAux fuel rest2
        else
          let d :=
            if e == 'b' then Char.ofNat 8
            else if e == 'f' then Char.ofNat 12
            else if e == 'n' then '\n'
            else if e == 'r' then '\r'
            else if e == 't' then '\t'
            else e
          d :: unquoteAux fuel rest1
    else c :: unquoteAux fuel rest

/-- The text of a string literal: `unquote` of `decode.go`. -/
def unquote (raw : List Char) : String :=
  String.mk (unquoteAux raw.length raw)

/-- The scanner in its error state (`s.error`). -/
def Scanner.fail (s : Scanner) : Scanner :=
  { s with step := Step.error }

/-- A value is complete: it becomes the pending key, member or element of the
innermost open container, or the top-level value, and the scanner goes to
`stateEndValue`. -/
def Scanner.complete (s : Scanner) (v : JSON) : Scanner :=
  match s.stack with
  | [] => { step := Step.endValue, stack := [], top := some v }
  | Frame.objKey done :: fs =>
    match v with
    | JSON.str k => { s with step := Step.endValue, stack := Frame.objColon done k :: fs }
    | _ => s.fail
  | Frame.objValue done k :: fs =>
    { s with step := Step.endValue, stack := Frame.objNext (done ++ [(k, v)]) :: fs }
  | Frame.arrValue done :: fs =>
    { s with step := Step.endValue, stack := Frame.arrNext (done ++ [v]) :: fs }
  | _ => s.fail

/-- Open a container (`pushParseState`): an error beyond `maxNestingDepth`. -/
def Scanner.push (s : Scanner) (f : Frame) (next : Step) : Scanner :=
  if s.stack.length + 1 ≤ maxNestingDepth then
    { s with step := next, stack := f :: s.stack }
  else s.fail

/-- Close the innermost container with value `v` (`popParseState`). -/
def Scanner.pop (s : Scanner) (v : JSON) : Scanner :=
  Scanner.complete { s with stack := s.stack.tail } v

/-- The step `stateEndValue` (and `stateEndTop` once no container is open):
after a value. -/
def stateEndValue (s : Scanner) (c : Char) : Scanner :=
  match s.stack with
  | [] => if jsonIsSpace c then { s with step := Step.endTop } else s.fail
  | f :: fs =>
    if jsonIsSpace c then { s with step := Step.endValue }
    else
      match f with
      | Frame.objColon done k =>
        if c == ':' then { s with step := Step.beginValue, stack := Frame.objValue done k :: fs }
        else s.fail
      | Frame.objNext done =>
        if c == ',' then { s with step := Step.beginString, stack := Frame.objKey done :: fs }
        else if c == chCloseBrace then s.pop (JSON.obj done)
        else s.fail
      | Frame.arrNext done =>
        if c == ',' then { s with step := Step.beginValue, stack := Frame.arrValue done :: fs }
        else if c == ']' then s.pop (JSON.arr done)
        else s.fail
      | _ => s.fail

/-- The step `stateBeginValue`: at the beginning of a value. -/
def stateBeginValue (s : Scanner) (c : Char) : Scanner :=
  if jsonIsSpace c then s
  else if c == chOpenBrace then s.push (Frame.objKey []) Step.beginStringOrEmpty
  else if c == '[' then s.push (Frame.arrValue []) Step.beginValueOrEmpty
  else if c == chDoubleQuote then { s with step := Step.inString [] }
  else if c == '-' then { s with step := Step.neg [c] }
  else if c == '0' then { s with step := Step.num0 [c] }
  else if c == 't' then { s with step := Step.lit ['r', 'u', 'e'] (JSON.bool true) }
  else if c == 'f' then { s with step := Step.lit ['a', 'l', 's', 'e'] (JSON.bool false) }
  else if c == 'n' then { s with step := Step.lit ['u', 'l', 'l'] JSON.null }
  else if '1' ≤ c && c ≤ '9' then { s with step := Step.num1 [c] }
  else s.fail

/-- The step `stateBeginString`: at the beginning of an object key. -/
def stateBeginString (s : Scanner) (c : Char) : Scanner :=
  if jsonIsSpace c then s
  else if c == chDoubleQuote then { s with step := Step.inString [] }
  else s.fail

/-- The number read so far is complete; `c` is the character after it. -/
def endNumber (s : Scanner) (acc : List Char) (c : Char) : Scanner :=
  stateEndValue (s.complete (JSON.num (String.mk acc.reverse))) c

/-- The step `state0`: after the integer part of a number. -/
def state0 (s : Scanner) (acc : List Char) (c : Char) : Scanner :=
  if c == '.' then { s with step := Step.dot (c :: acc) }
  else if c == 'e' || c == 'E' then { s with step := Step.expE (c :: acc) }
  else endNumber s acc c

/-- One step of the scanner on the character `c` (`s.step(s, c)`). -/
def Scanner.next (s : Scanner) (c : Char) : Scanner :=
  match s.step with
  | Step.error => s
  | Step.beginValue => stateBeginValue s c
  | Step.beginValueOrEmpty =>
    if jsonIsSpace c then s
    else if c == ']' then
      match s.stack with
      | Frame.arrValue done :: _ => s.pop (JSON.arr done)
      | _ => s.fail
    else stateBeginValue s c
  | Step.beginString => stateBeginString s c
  | Step.beginStringOrEmpty =>
    if jsonIsSpace c then s
    else if c == chCloseBrace then
      match s.stack with
      | Frame.objKey done :: _ => s.pop (JSON.obj done)
      | _ => s.fail
    else stateBeginString s c
  | Step.endValue => stateEndValue s c
  | Step.endTop => if jsonIsSpace c then s else s.fail
  | Step.inString acc =>
    if c == chDoubleQuote then s.complete (JSON.str (unquote acc.reverse))
    else if c == chBackslash then { s with step := Step.inStringEsc (c :: acc) }
    else if c.toNat < 0x20 then s.fail
    else { s with step := Step.inString (c :: acc) }
  | Step.inStringEsc acc =>
    if c == 'b' || c == 'f' || c == 'n' || c == 'r' || c == 't' || c == chBackslash ||
        c == '/' || c == chDoubleQuote then
      { s with step := Step.inString (c :: acc) }
    else if c == 'u' then { s with step := Step.inStringEscU (c :: acc) 0 }
    else s.fail
  | Step.inStringEscU acc seen =>
    if isHexDigit c then
      if seen < 3 then { s with step := Step.inStringEscU (c :: acc) (seen + 1) }
      else { s with step := Step.inString (c :: acc) }
    else s.fail
  | Step.neg acc =>
    if c == '0' then { s with step := Step.num0 (c :: acc) }
    else if '1' ≤ c && c ≤ '9' then { s with step := Step.num1 (c :: acc) }
    else s.fail
  | Step.num1 acc =>
    if isDigit c then { s with step := Step.num1 (c :: acc) }
    else state0 s acc c
  | Step.num0 acc => state0 s acc c
  | Step.dot acc =>
    if isDigit c then { s with step := Step.dot0 (c :: acc) } else s.fail
  | Step.dot0 acc =>
    if isDigit c then { s with step := Step.dot0 (c :: acc) }
    else if c == 'e' || c == 'E' then { s with step := Step.expE (c :: acc) }
    else endNumber s acc c
  | Step.expE acc =>
    if c == '+' || c == '-' then { s with step := Step.expSign (c :: acc) }
    else if isDigit c then { s with step := Step.exp0 (c :: acc) }
    else s.fail
  | Step.expSign acc =>
    if isDigit c then { s with step := Step.exp0 (c :: acc) } else s.fail
  | Step.exp0 acc =>
    if isDigit c then { s with step := Step.exp0 (c :: acc) }
    else endNumber s acc c
  | Step.lit rest v =>
    match rest with
    | [] => s.fail
    | [x] => if c == x then s.complete v else s.fail
    | x :: xs => if c == x then { s with step := Step.lit xs v } else s.fail

/-- The JSON value a text consists of (`checkValid` with the value built);
`none` is a syntax error.  At the end of the input the scanner is stepped on a
space and must then have completed the top-level value (`scanner.eof`). -/
def parseJSON (data : String) : Option JSON :=
  let s := (data.toList.foldl Scanner.next ⟨Step.beginValue, [], none⟩).next ' '
  match s.step with
  | Step.endTop => s.top
  | _ => none

deriving instance DecidableEq for Except

/-- The error of `json.Unmarshal`: a `*json.SyntaxError`, or the first
`*json.UnmarshalTypeError` the decoder saved, with its `Value`. -/
inductive JSONError where
  | invalidJSON
  | typeMismatch (value : String)
  deriving DecidableEq

/-- One element of `RerankResult.Results` (lines 40-43). -/
structure RerankEntry where
  Index : Int
  Score : ℚ
  deriving DecidableEq

/-- The struct `RerankResult` (lines 39-44). -/
structure RerankResult where
  Results : List RerankEntry
  deriving DecidableEq

/-- The name `encoding/json` gives the kind of a value in an
`UnmarshalTypeError`. -/
def jsonKind : JSON → String
  | JSON.null => "null"
  | JSON.bool _ => "bool"
  | JSON.num _ => "number"
  | JSON.str _ => "string"
  | JSON.arr _ => "array"
  | JSON.obj _ => "object"

/-- Keep the first error (`d.saveError`). -/
def saveError (saved : Option JSONError) (e : JSONError) : Option JSONError :=
  match saved with
  | none => some e
  | some s => some s

/-- Simple case folding of a character of an object key, as far as it can
reach a lower-case ASCII letter: the upper-case ASCII letters, the long s
(U+017F) and the Kelvin sign (U+212A). -/
def foldChar (c : Char) : Char :=
  if 'A' ≤ c && c ≤ 'Z' then Char.ofNat (c.toNat + 32)
  else if c.toNat == 0x17F then 's'
  else if c.toNat == 0x212A then 'k'
  else c

/-- Whether an object key selects the struct field with the (lower-case) JSON
name `name`: `encoding/json` matches keys to fields case-insensitively. -/
def fieldMatches (name key : String) : Bool :=
  key.toList.map foldChar == name.toList

/-- Value of a sequence of decimal digits. -/
def digitsValue (ds : List Char) : Nat :=
  ds.foldl (fun n c => 10 * n + (c.toNat - 48)) 0

/-- The conversion `strconv.ParseInt(lit, 10, 64)` of a JSON number literal:
`none` when the literal has a fraction or an exponent or is outside the range
of `int64`. -/
def parseInt64 (lit : String) : Option Int :=
  let cs := lit.toList
  let isNeg := cs.head? == some '-'
  let ds := if isNeg then cs.tail else cs
  if ds.all isDigit && !ds.isEmpty then
    let n : Int := if isNeg then -(digitsValue ds : Int) else (digitsValue ds : Int)
    if -(2 : Int) ^ 63 ≤ n ∧ n < (2 : Int) ^ 63 then some n else none
  else none

/-- The rational number a JSON number literal denotes. -/
def decimalValue (lit : String) : ℚ :=
  let cs := lit.toList
  let isNeg := cs.head? == some '-'
  let body := if isNeg then cs.tail else cs
  let isExp := fun c : Char => c == 'e' || c == 'E'
  let mant := body.takeWhile (fun c => !isExp c)
  let expo := (body.dropWhile (fun c => !isExp c)).tail
  let intDigits := mant.takeWhile (fun c => c != '.')
  let fracDigits := (mant.dropWhile (fun c => c != '.')).tail
  let expNeg := expo.head? == some '-'
  let expDigits := if expNeg || expo.head? == some '+' then expo.tail else expo
  let e10 : Int :=
    (if expNeg then -(digitsValue expDigits : Int) else (digitsValue expDigits : Int))
      - (fracDigits.length : Int)
  let m : ℚ := (digitsValue (intDigits ++ fracDigits) : ℚ) * (10 : ℚ) ^ e10
  if isNeg then -m else m

/-- The conversion `strconv.ParseFloat(lit, 64)` of a JSON number literal: the
binary64 number nearest to the literal, `none` (a range error) when the literal
is at least half a unit in the last place beyond the largest finite number. -/
def parseFloat64 (lit : String) : Option ℚ :=
  let q := decimalValue lit
  if |q| < (2 : ℚ) ^ 1024 - (2 : ℚ) ^ 970 then some (roundFloat64 q) else none

/-- Store a JSON value in an `int` field holding `cur`. -/
def decodeInt (cur : Int) (v : JSON) (saved : Option JSONError) : Int × Option JSONError :=
  match v with
  | JSON.null => (cur, saved)
  | JSON.num lit =>
    match parseInt64 lit with
    | some n => (n, saved)
    | none => (cur, saveError saved (JSONError.typeMismatch ("number " ++ lit)))
  | other => (cur, saveError saved (JSONError.typeMismatch (jsonKind other)))

/-- Store a JSON value in a `float64` field holding `cur`. -/
def decodeFloat (cur : ℚ) (v : JSON) (saved : Option JSONError) : ℚ × Option JSONError :=
  match v with
  | JSON.null => (cur, saved)
  | JSON.num lit =>
    match parseFloat64 lit with
    | some x => (x, saved)
    | none => (cur, saveError saved (JSONError.typeMismatch ("number " ++ lit)))
  | other => (cur, saveError saved (JSONError.typeMismatch (jsonKind other)))

/-- Store one object member in an element of `Results`: the keys `index` and
`score` select a field, any other key is skipped. -/
def decodeEntryMember (acc : RerankEntry × Option JSONError) (m : String × JSON) :
    RerankEntry × Option JSONError :=
  if fieldMatches "index" m.1 then
    let r := decodeInt acc.1.Index m.2 acc.2
    ({ acc.1 with Index := r.1 }, r.2)
  else if fieldMatches "score" m.1 then
    let r := decodeFloat acc.1.Score m.2 acc.2
    ({ acc.1 with Score := r.1 }, r.2)
  else acc

/-- Store a JSON value in an element of `Results` holding `cur`. -/
def decodeEntry (cur : RerankEntry) (v : JSON) (saved : Option JSONError) :
    RerankEntry × Option JSONError :=
  match v with
  | JSON.null => (cur, saved)
  | JSON.obj members => members.foldl decodeEntryMember (cur, saved)
  | other => (cur, saveError saved (JSONError.typeMismatch (jsonKind other)))

/-- Store the elements of a JSON array in a slice holding `cur` (`d.array`):
element `i` is decoded into the existing element `i` when there is one, which
happens only when the key `results` occurs again, and into a zero element
otherwise.  When the key occurs a third time after a shorter array,
`encoding/json` re-extends the slice over its old backing array and decodes
into the stale element left there; the model takes a zero element. -/
def decodeEntries (cur : List RerankEntry) (items : List JSON) (saved : Option JSONError) :
    List RerankEntry × Option JSONError :=
  match items with
  | [] => ([], saved)
  | item :: rest =>
    let r := decodeEntry (cur.headD ⟨0, 0⟩) item saved
    let rs := decodeEntries cur.tail rest r.2
    (r.1 :: rs.1, rs.2)

/-- Store a JSON value in the field `Results` holding `cur`. -/
def decodeResults (cur : List RerankEntry) (v : JSON) (saved : Option JSONError) :
    List RerankEntry × Option JSONError :=
  match v with
  | JSON.null => ([], saved)
  | JSON.arr items => decodeEntries cur items saved
  | other => (cur, saveError saved (JSONError.typeMismatch (jsonKind other)))

/-- Store one object member in a `RerankResult`: the key `results` selects the
field, any other key is skipped. -/
def decodeResultMember (acc : RerankResult × Option JSONError) (m : String × JSON) :
    RerankResult × Option JSONError :=
  if fieldMatches "results" m.1 then
    let r := decodeResults acc.1.Results m.2 acc.2
    (⟨r.1⟩, r.2)
  else acc

/-- Store a JSON value in a zero `RerankResult` (`d.value`). -/
def decodeRerankResult (v : JSON) : RerankResult × Option JSONError :=
  match v with
  | JSON.null => (⟨[]⟩, none)
  | JSON.obj members => members.foldl decodeResultMember (⟨[]⟩, none)
  | other => (⟨[]⟩, some (JSONError.typeMismatch (jsonKind other)))

/-- The call `json.Unmarshal([]byte(data), &rerankResult)` of line 119 on a
zero `rerankResult`. -/
def jsonUnmarshal (data : String) : Except JSONError RerankResult :=
  match parseJSON data with
  | none => Except.error JSONError.invalidJSON
  | some v =>
    match decodeRerankResult v with
    | (r, none) => Except.ok r
    | (_, some e) => Except.error e

/-! ## The model-based reranker -/

/-- The struct `vector.Document`. -/
structure Document where
  ID : Int
  Content : String
  Embedding : List ℚ
  Distance : ℚ
  deriving DecidableEq

/-- The struct `RankedDocument` (lines 46-50). -/
structure RankedDocument where
  Index : Int
  Content : String
  Score : ℚ
  deriving DecidableEq

/-- Outcome of a Go function with results `(value, error)`: it returns a value
with a nil error, returns an error, or stops with a run-time panic. -/
inductive GoResult (ε α : Type) where
  | ret (value : α)
  | err (e : ε)
  | panic
  deriving DecidableEq

/-- Go's built-in `min` on `int`, as redefined at lines 173-178. -/
def min (a b : Nat) : Nat :=
  if a < b then a else b

/-- The function `truncate` (lines 180-185): `len(s)` and `s[:maxChars]` count
bytes. -/
def truncate (s : List UInt8) (maxChars : Nat) : List UInt8 :=
  if s.length > maxChars then s.take maxChars else s

/-- The constant `maxDocs` of `buildPrompt`. -/
def maxDocs : Nat := 3

/-- The constant `maxDocChars` of `buildPrompt`. -/
def maxDocChars : Nat := 200

/-- A number with `digits` decimal digits, zero-padded on the left. -/
def padDigits (digits n : Nat) : String :=
  let r := toString n
  String.mk (List.replicate (digits - r.length) '0') ++ r

/-- The verb `%.3f` of `fmt.Sprintf` on a finite `float64`. -/
def formatFixed3 (v : ℚ) : String :=
  let n := (roundHalfEven (|v| * 1000)).toNat
  (if v < 0 then "-" else "") ++ toString (n / 1000) ++ "." ++ padDigits 3 (n % 1000)

/-- The text shown for one candidate: the content after `truncate` (line 218). -/
def promptContent (doc : Document) : List UInt8 :=
  truncate (utf8 doc.Content) maxDocChars

/-- The lines of the section `Documents:` (lines 217-220), from index `i`. -/
def documentLines (i : Nat) : List Document → List UInt8
  | [] => []
  | doc :: rest =>
    utf8 ("D" ++ toString i ++ " (distance: " ++ formatFixed3 (f64sub 1 doc.Distance) ++ "): ")
      ++ promptContent doc ++ utf8 "\n" ++ documentLines (i + 1) rest

/-- The entries of the output format (lines 225-230), from index `i`. -/
def formatEntries (i : Nat) : List Document → String
  | [] => ""
  | _ :: rest =>
    (if i > 0 then "," else "") ++ "\x7b\"index\":" ++ toString i ++ ",\"score\":0.0\x7d"
      ++ formatEntries (i + 1) rest

/-- The method `buildPrompt` (lines 186-233); the result is the byte string
`sb.String()`. -/
def buildPrompt (query : String) (documents : List Document) : List UInt8 :=
  let documents := documents.take (min documents.length maxDocs)
  utf8 ("You are a reranking system.\n" ++
        "Score each document for relevance to the query.\n\n" ++
        "RULES:\n" ++
        "OUTPUT ONLY VALID JSON. NO EXTRA TEXT.\n\n" ++
        "- No markdown, no extra text\n" ++
        "- Exactly " ++ toString documents.length ++ " results\n" ++
        "- Score range: 0.0 to 1.0\n" ++
        "- Consider both semantic relevance AND vector distance\n" ++
        "- Start with \x7b and end with \x7d\n\n" ++
        "Query:\n" ++ query ++ "\n\n" ++
        "Documents:\n")
    ++ documentLines 0 documents
    ++ utf8 ("\nOutput JSON format:\n" ++ "\x7b\"results\":[" ++ formatEntries 0 documents ++ "]\x7d")

/-- What lines 73-110 of `Rerank` can fail with: sending the request, a status
other than 200 (with the body), reading the body, decoding the outer JSON. -/
inductive TransportError where
  | send
  | status (code : Nat) (body : String)
  | readBody
  | unmarshalResponse
  deriving DecidableEq

/-- The scoring collaborator seen from `Rerank`: for the prompt sent, either
the field `response.Response` of the decoded reply or the failure of the
exchange. -/
abbrev ScoringCollaborator := List UInt8 → Except TransportError String

/-- The errors `Rerank` returns: a failed exchange, or line 120, the error of
`json.Unmarshal` together with the raw text `response.Response`. -/
inductive RerankError where
  | transport (e : TransportError)
  | parseFailed (cause : JSONError) (response : String)
  deriving DecidableEq

/-- The constant `0.6` of line 125, as a `float64`. -/
def scoreThreshold : ℚ := roundFloat64 (6 / 10)

/-- The element `documents[i]` of a slice for an `int` index: `none` is the
run-time panic "index out of range". -/
def indexDocument (documents : List Document) (i : Int) : Option Document :=
  if 0 ≤ i then documents[i.toNat]? else none

/-- The loop of lines 123-134 over the entries still to visit, `results`
being the slice built so far. -/
def selectLoop (documents : List Document) :
    List RerankEntry → List RankedDocument → GoResult RerankError (List RankedDocument)
  | [], results => GoResult.ret results
  | rerank :: rest, results =>
    if rerank.Score > scoreThreshold then
      match indexDocument documents rerank.Index with
      | none => GoResult.panic
      | some d =>
        selectLoop documents rest
          (results ++ [{ Index := rerank.Index, Content := d.Content, Score := rerank.Score }])
    else selectLoop documents rest results

/-- The method `Rerank` (lines 62-137). -/
def Rerank (scoring : ScoringCollaborator) (content : String) (documents : List Document) :
    GoResult RerankError (List RankedDocument) :=
  let prompt := buildPrompt content documents
  match scoring prompt with
  | Except.error e => GoResult.err (RerankError.transport e)
  | Except.ok response =>
    match jsonUnmarshal (cleanResponse response) with
    | Except.error e => GoResult.err (RerankError.parseFailed e response)
    | Except.ok rerankResult => selectLoop documents rerankResult.Results []

/-! ## The fallback reranker -/

/-- Go's `unicode.ToLower` as far as `tokenize` can observe it: the characters
it maps into `a`-`z` are the upper-case ASCII letters, the dotted capital I
(U+0130) and the Kelvin sign (U+212A); it leaves `a`-`z`, the digits and the
Hangul syllables alone, and whatever else it changes is a separator before and
after the change. -/
def toLowerRune (c : Char) : Char :=
  if 'A' ≤ c && c ≤ 'Z' then Char.ofNat (c.toNat + 32)
  else if c.toNat == 0x130 then 'i'
  else if c.toNat == 0x212A then 'k'
  else c

/-- The complement of the separator predicate of line 278: an ASCII lower-case
letter, a Hangul syllable (U+AC00 to U+D7A3) or a digit. -/
def isTokenRune (r : Char) : Bool :=
  ('a' ≤ r && r ≤ 'z') || ('가' ≤ r && r ≤ '힣') || ('0' ≤ r && r ≤ '9')

/-- Go's `strings.FieldsFunc` on the characters still to read, `cur` being the
field under way, in reverse: the maximal runs of characters that do not
satisfy `f`. -/
def fieldsFuncAux (f : Char → Bool) : List Char → List Char → List String
  | [], cur => if cur.isEmpty then [] else [String.mk cur.reverse]
  | c :: cs, cur =>
    if f c then
      if cur.isEmpty then fieldsFuncAux f cs []
      else String.mk cur.reverse :: fieldsFuncAux f cs []
    else fieldsFuncAux f cs (c :: cur)

/-- Go's `strings.FieldsFunc`. -/
def fieldsFunc (f : Char → Bool) (s : List Char) : List String :=
  fieldsFuncAux f s []

/-- The function `tokenize` (lines 274-281). -/
def tokenize (text : String) : List String :=
  let text := text.toList.map toLowerRune
  fieldsFunc (fun r => !isTokenRune r) text

/-- The map `docTokenSet` after the loop of lines 291-293; a key that was
never stored reads as `false`. -/
def docTokenSet (docTokens : List String) : String → Bool :=
  docTokens.foldl (fun m token => fun k => if k = token then true else m k) (fun _ => false)

/-- The function `calculateKeywordMatch` (lines 284-303). -/
def calculateKeywordMatch (queryTokens : List String) (docContent : String) : ℚ :=
  if queryTokens.length = 0 then 1 / 2
  else
    let docTokens := tokenize docContent
    let set := docTokenSet docTokens
    let matchCount : Nat := queryTokens.foldl (fun n qToken => if set qToken then n + 1 else n) 0
    f64div (f64ofInt matchCount) (f64ofInt queryTokens.length)

/-- The function `calculateLengthPenalty` (lines 306-318). -/
def calculateLengthPenalty (content : String) : ℚ :=
  let length := content.length
  if length ≥ 50 ∧ length ≤ 200 then 1
  else if length < 50 then f64div (f64ofInt length) 50
  else f64sub 1 (f64div (f64ofInt ((length : Int) - 200)) 1000)

/-- The expression `finalScore` of line 252, evaluated operation by operation
from left to right, each product and each sum rounded (no fused
multiply-add, as on amd64); the constants `0.4` and `0.1` are the nearest
`float64` numbers. -/
def finalScore (queryTokens : List String) (doc : Document) : ℚ :=
  let vectorScore := f64sub 1 doc.Distance
  let keywordScore := calculateKeywordMatch queryTokens doc.Content
  let lengthPenalty := calculateLengthPenalty doc.Content
  f64add (f64add (f64mul vectorScore (1 / 2)) (f64mul keywordScore (roundFloat64 (4 / 10))))
    (f64mul lengthPenalty (roundFloat64 (1 / 10)))

/-- One pass of the inner loop of `insertionSortLessFunc` (package `sort`): the
element `x` moves left past every element it is less than.  The sorted part
before it is given in reverse, and so is the result. -/
def insertFromRight {α : Type} (less : α → α → Bool) (x : α) : List α → List α
  | [] => [x]
  | y :: ys => if less x y then y :: insertFromRight less x ys else x :: y :: ys

/-- The call `sort.Slice(data, less)`.  The package promises a permutation in
which no element is less than an earlier one, and no order among ties; on
short slices (up to 6 elements in every release, the handler passes at most 3)
it runs exactly this insertion sort. -/
def sortSlice {α : Type} (less : α → α → Bool) (data : List α) : List α :=
  (data.foldl (fun sortedRev x => insertFromRight less x sortedRev) []).reverse

/-- The slice `ranked` after the loop of lines 241-258; `Index` is not set. -/
def scoreDocuments (queryTokens : List String) (documents : List Document) :
    List RankedDocument :=
  documents.map (fun doc =>
    { Index := 0, Content := doc.Content, Score := finalScore queryTokens doc })

/-- The method `FastRerank` (lines 236-271). -/
def FastRerank (query : String) (documents : List Document) :
    GoResult RerankError (List RankedDocument) :=
  let queryTokens := tokenize query
  let ranked := scoreDocuments queryTokens documents
  let ranked := sortSlice (fun a b => decide (a.Score > b.Score)) ranked
  let ranked := if ranked.length > 3 then ranked.take 3 else ranked
  GoResult.ret ranked

/-! ## The pipeline handler -/

/-- What a handler reports in the field `error` of a response body: the text
of an error, or the error of `Rerank`. -/
inductive HandlerError where
  | message (text : String)
  | rerank (e : RerankError)
  deriving DecidableEq

/-- The body `gin.H` of a response written by `RagChatting`. -/
inductive Body where
  | error (e : HandlerError)
  | answer (text : String)
  deriving DecidableEq

/-- What `RagChatting` does that is visible outside it, in program order: the
calls of the four stages with their arguments, the responses written with
`c.JSON`, and a run-time panic that ends the handler. -/
inductive Event where
  | embed (text : String)
  | search (queryVector : List ℚ) (limit : Int)
  | rerank (content : String) (documents : List Document)
  | chat (userQuestion : String) (contextDocuments : List RankedDocument)
  | respond (status : Nat) (body : Body)
  | panic
  deriving DecidableEq

/-- The collaborators of a `DocumentHandler`.  A function returning a pair
returns Go's `(value, error)`, the error `none` being nil. -/
structure DocumentHandler where
  /-- The method `embService.GenerateEmbedding`. -/
  GenerateEmbedding : String → List ℚ × Option String
  /-- The query of `db.SearchSimilar` (lines 81-97 of `vectordb.go`). -/
  query : List ℚ → Int → List Document × Option String
  /-- The scoring collaborator of `rerankerService`. -/
  scoring : ScoringCollaborator
  /-- The method `llmChatService.Chat`. -/
  Chat : String → List RankedDocument → String × Option String

/-- The method `SearchSimilar` of `vectordb.go` (lines 60-98). -/
def SearchSimilar (query : List ℚ → Int → List Document × Option String)
    (queryVector : List ℚ) (limit : Int) : List Document × Option String :=
  if queryVector.length ≠ 1024 then
    ([], some ("query vector must be 1024 dimensions, got " ++ toString queryVector.length))
  else query queryVector limit

/-- The statement `if err != nil { c.JSON(http.StatusBadRequest, ...) }`, which
writes a response and goes on. -/
def reportError (err : Option HandlerError) : List Event :=
  match err with
  | some e => [Event.respond 400 (Body.error e)]
  | none => []

/-- The handler `RagChatting` (lines 31-71 of `handlers.go`); `bound` is the
outcome of `c.ShouldBindJSON(&req)`, the field `req.Content` or the error. -/
def RagChatting (h : DocumentHandler) (bound : Except String String) : List Event :=
  match bound with
  | Except.error e => [Event.respond 400 (Body.error (HandlerError.message e))]
  | Except.ok content =>
    let embedded := h.GenerateEmbedding content
    let embChatData := embedded.1
    let events := [Event.embed content] ++ reportError (embedded.2.map HandlerError.message)
    let found := SearchSimilar h.query embChatData 3
    let similar := found.1
    let events := events ++ [Event.search embChatData 3]
      ++ reportError (found.2.map HandlerError.message)
    let events := events ++ [Event.rerank content similar]
    match Rerank h.scoring content similar with
    | GoResult.panic => events ++ [Event.panic]
    | GoResult.err e =>
      let events := events ++ reportError (some (HandlerError.rerank e))
      let answered := h.Chat content []
      events ++ [Event.chat content []] ++ reportError (answered.2.map HandlerError.message)
        ++ [Event.respond 200 (Body.answer answered.1)]
    | GoResult.ret rerank =>
      let answered := h.Chat content rerank
      events ++ [Event.chat content rerank] ++ reportError (answered.2.map HandlerError.message)
        ++ [Event.respond 200 (Body.answer answered.1)]

/-! ## Notions used in the statements -/

/-- The entries of a parsed `results` array that pass the threshold of line
125, in the order of the array. -/
def keptEntries (results : List RerankEntry) : List RerankEntry :=
  results.filter (fun e => decide (e.Score > scoreThreshold))

/-- Whether every index of a parsed `results` array is a position of the
candidate list. -/
def IndicesValid (documents : List Document) (results : List RerankEntry) : Prop :=
  ∀ e ∈ results, 0 ≤ e.Index ∧ e.Index < documents.length

instance (documents : List Document) (results : List RerankEntry) :
    Decidable (IndicesValid documents results) := by
  unfold IndicesValid
  infer_instance

/-- Candidates of the scenario of the specification, at the distances 0.1,
0.12 and 0.9 as `float64` numbers. -/
def sampleDocuments : List Document :=
  [⟨11, "한국의 수도는 서울입니다.", [], roundFloat64 (1 / 10)⟩,
   ⟨12, "한국의 수도는 서울이다.", [], roundFloat64 (12 / 100)⟩,
   ⟨13, "테스트입니다.", [], roundFloat64 (9 / 10)⟩]

/-- A response wrapped in quotes and white space, with scores `0.9`, `0.6`
and `0.61`. -/
def sampleResponse : String :=
  " \"\x7b\"results\":[\x7b\"index\":0,\"score\":0.9\x7d,\x7b\"index\":1,\"score\":0.6\x7d,\x7b\"index\":2,\"score\":0.61\x7d]\x7d\" \n"

/-- A content of 67 Hangul syllables: 67 characters, 201 bytes. -/
def hangulContent : String :=
  String.mk (List.replicate 67 '가')

/-- A handler whose embedding collaborator fails, as `GenerateEmbedding` does
when the request cannot be sent (line 66 of `embedding.go`): it returns a nil
vector and the error.  The scoring collaborator answers with an empty
`results` array and the chat collaborator with a refusal. -/
def embeddingDownHandler : DocumentHandler where
  GenerateEmbedding := fun _ => ([], some "failed to send request: connection refused")
  query := fun _ _ => ([], none)
  scoring := fun _ => Except.ok "\x7b\"results\":[]\x7d"
  Chat := fun _ _ => ("참고할 문서가 없습니다.", none)

/-- A rational that is a `float64` number: rounding leaves it alone. -/
def IsFloat64 (x : ℚ) : Prop :=
  roundFloat64 x = x

/-- `MaximalRuns p text runs`: `runs` lists, in order, the maximal runs of
characters of `text` that satisfy `p`.  The text is a gap of characters that
do not satisfy `p`, then a non-empty run of characters that do, which ends
where the text ends or before a character that does not satisfy `p`, and so
on; after the last run only a gap is left. -/
inductive MaximalRuns (p : Char → Bool) : List Char → List (List Char) → Prop where
  | done (gap : List Char) (hgap : ∀ c ∈ gap, p c = false) : MaximalRuns p gap []
  | run (gap run rest : List Char) (runs : List (List Char))
      (hgap : ∀ c ∈ gap, p c = false) (hne : run ≠ []) (hrun : ∀ c ∈ run, p c = true)
      (hend : ∀ c, rest.head? = some c → p c = false) (hrest : MaximalRuns p rest runs) :
      MaximalRuns p (gap ++ run ++ rest) (run :: runs)

/-- A text with upper-case letters, punctuation, Hangul, the Kelvin sign
(U+212A) and the dotted capital I (U+0130). -/
def sampleMixedCaseText : String :=
  "Hello, World! 한국의 수도는 K2 İ?"

/-! ## The fuel of `unquote` -/

/-- The fuel `unquote` passes is enough: with at least as much fuel as
characters, `unquoteAux` does not depend on the fuel. -/
theorem unquoteAux_fuel (fuel fuel2 : Nat) (cs : List Char)
    (h : cs.length ≤ fuel) (h2 : cs.length ≤ fuel2) :
    unquoteAux fuel cs = unquoteAux fuel2 cs := by
  induction fuel generalizing fuel2 cs with
  | zero =>
    have hnil : cs = [] := List.length_eq_zero.mp (Nat.le_zero.mp h)
    subst hnil
    cases fuel2 <;> simp [unquoteAux]
  | succ fuel ih =>
    cases cs with
    | nil => cases fuel2 <;> simp [unquoteAux]
    | cons c rest =>
      cases fuel2 with
      | zero => simp at h2
      | succ fuel2 =>
        simp only [List.length_cons, Nat.add_le_add_iff_right] at h h2
        have hdrop : ∀ (l : List Char) (k : Nat), (l.drop k).length ≤ l.length := by
          intro l k
          rw [List.length_drop]
          omega
        unfold unquoteAux
        split_ifs with hb
        · cases rest with
          | nil => rfl
          | cons e rest1 =>
            simp only [List.length_cons] at h h2
            have h4 := hdrop rest1 4
            have h6 := hdrop (rest1.drop 4) 6
            simp only
            by_cases hu : (e == 'u') = true
            · simp only [hu, if_true]
              cases getu4 (c :: e :: rest1) with
              | none => rfl
              | some rr =>
                simp only
                split_ifs with hs
                · cases getu4 (rest1.drop 4) with
                  | none =>
                    simp only
                    rw [ih fuel2 _ (by omega) (by omega)]
                  | some rr1 =>
                    simp only
                    split_ifs with hl
                    · rw [ih fuel2 _ (by omega) (by omega)]
                    · rw [ih fuel2 _ (by omega) (by omega)]
                · rw [ih fuel2 _ (by omega) (by omega)]
            · simp only [hu, Bool.false_eq_true, if_false]
              rw [ih fuel2 _ (by omega) (by omega)]
        · rw [ih fuel2 _ h h2]

/-! ## Properties of float64 rounding -/

theorem roundHalfEven_intCast (n : ℤ) : roundHalfEven (n : ℚ) = n := by
  simp [roundHalfEven]

theorem floor_le_roundHalfEven (q : ℚ) : ⌊q⌋ ≤ roundHalfEven q := by
  unfold roundHalfEven
  simp only
  split_ifs <;> omega

theorem roundHalfEven_le_floor_add_one (q : ℚ) : roundHalfEven q ≤ ⌊q⌋ + 1 := by
  unfold roundHalfEven
  simp only
  split_ifs <;> omega

theorem roundHalfEven_mono {x y : ℚ} (h : x ≤ y) : roundHalfEven x ≤ roundHalfEven y := by
  have hf : ⌊x⌋ ≤ ⌊y⌋ := Int.floor_mono h
  rcases hf.lt_or_eq with hlt | heq
  · calc roundHalfEven x ≤ ⌊x⌋ + 1 := roundHalfEven_le_floor_add_one x
      _ ≤ ⌊y⌋ := hlt
      _ ≤ roundHalfEven y := floor_le_roundHalfEven y
  · have hr : x - (⌊x⌋ : ℚ) ≤ y - (⌊y⌋ : ℚ) := by rw [heq]; linarith
    unfold roundHalfEven
    simp only
    rw [heq] at hr ⊢
    split_ifs <;> first | omega | linarith

theorem roundHalfEven_nonneg {q : ℚ} (h : 0 ≤ q) : 0 ≤ roundHalfEven q := by
  have := roundHalfEven_mono h
  rwa [show (0 : ℚ) = ((0 : ℤ) : ℚ) by simp, roundHalfEven_intCast] at this

theorem two_zpow_pos (e : ℤ) : (0 : ℚ) < (2 : ℚ) ^ e := by positivity

theorem roundMagnitude_nonneg {a : ℚ} (h : 0 ≤ a) : 0 ≤ roundMagnitude a := by
  unfold roundMagnitude
  split_ifs
  · exact le_refl _
  · have h1 : (0 : ℚ) ≤ a / (2 : ℚ) ^ ulpExponent a := div_nonneg h (two_zpow_pos _).le
    have h2 := roundHalfEven_nonneg h1
    have h3 : (0 : ℚ) ≤ (roundHalfEven (a / (2 : ℚ) ^ ulpExponent a) : ℚ) := by exact_mod_cast h2
    exact mul_nonneg h3 (two_zpow_pos _).le

theorem floorLog2Aux_eq_log2 (fuel n : Nat) (h : n ≤ fuel) :
    floorLog2Aux fuel n = Nat.log2 n := by
  induction fuel generalizing n with
  | zero =>
    have hn : n = 0 := by omega
    subst hn
    unfold Nat.log2
    simp [floorLog2Aux]
  | succ fuel ih =>
    unfold floorLog2Aux
    rw [Nat.log2]
    split_ifs with h2
    · rw [ih (n / 2) (by omega)]
    · rfl

theorem floorLog2_eq_log2 (n : Nat) : floorLog2 n = Nat.log2 n :=
  floorLog2Aux_eq_log2 n n (Nat.le_refl n)

/-- The binary exponent is the integer logarithm to base 2. -/
theorem binaryExponent_eq_log {a : ℚ} (ha : 0 < a) : binaryExponent a = Int.log 2 a := by
  have hnum : 0 < a.num := Rat.num_pos.mpr ha
  have hn0 : a.num.natAbs ≠ 0 := Int.natAbs_ne_zero.mpr hnum.ne.symm
  have hd0 : a.den ≠ 0 := a.den_nz
  have hdpos : (0 : ℚ) < (a.den : ℚ) := by exact_mod_cast Nat.pos_of_ne_zero hd0
  have ha_eq : a = (a.num.natAbs : ℚ) / (a.den : ℚ) := by
    have h1 : ((a.num.natAbs : ℤ) : ℚ) = (a.num : ℚ) := by
      rw [Int.natAbs_of_nonneg hnum.le]
    have h2 : (a.num.natAbs : ℚ) = (a.num : ℚ) := by
      rw [← h1]
      exact (Int.cast_natCast _).symm
    rw [h2]
    exact (Rat.num_div_den a).symm
  -- bounds of numerator and denominator by powers of two
  have hnlo : ((2 : ℚ) ^ a.num.natAbs.log2) ≤ (a.num.natAbs : ℚ) := by
    exact_mod_cast Nat.log2_self_le hn0
  have hnhi : (a.num.natAbs : ℚ) < (2 : ℚ) ^ (a.num.natAbs.log2 + 1) := by
    exact_mod_cast Nat.lt_log2_self (n := a.num.natAbs)
  have hdlo : ((2 : ℚ) ^ a.den.log2) ≤ (a.den : ℚ) := by
    exact_mod_cast Nat.log2_self_le hd0
  have hdhi : (a.den : ℚ) < (2 : ℚ) ^ (a.den.log2 + 1) := by
    exact_mod_cast Nat.lt_log2_self (n := a.den)
  set ln := a.num.natAbs.log2 with hln
  set ld := a.den.log2 with hld
  have hupper : a < (2 : ℚ) ^ ((ln : ℤ) - (ld : ℤ) + 1) := by
    rw [ha_eq, div_lt_iff₀ hdpos]
    calc (a.num.natAbs : ℚ) < (2 : ℚ) ^ (ln + 1) := hnhi
      _ = (2 : ℚ) ^ ((ln : ℤ) - (ld : ℤ) + 1) * (2 : ℚ) ^ ld := by
          rw [← zpow_natCast, ← zpow_natCast, ← zpow_add₀ (by norm_num)]
          congr 1
          push_cast
          ring
      _ ≤ (2 : ℚ) ^ ((ln : ℤ) - (ld : ℤ) + 1) * (a.den : ℚ) :=
          mul_le_mul_of_nonneg_left hdlo (two_zpow_pos _).le
  have hlower : (2 : ℚ) ^ ((ln : ℤ) - (ld : ℤ) - 1) ≤ a := by
    rw [ha_eq, le_div_iff₀ hdpos]
    calc (2 : ℚ) ^ ((ln : ℤ) - (ld : ℤ) - 1) * (a.den : ℚ)
        ≤ (2 : ℚ) ^ ((ln : ℤ) - (ld : ℤ) - 1) * (2 : ℚ) ^ (ld + 1) :=
          mul_le_mul_of_nonneg_left hdhi.le (two_zpow_pos _).le
      _ = (2 : ℚ) ^ ln := by
          rw [← zpow_natCast, ← zpow_natCast, ← zpow_add₀ (by norm_num)]
          congr 1
          push_cast
          ring
      _ ≤ (a.num.natAbs : ℚ) := hnlo
  have hlog_lt : Int.log 2 a < (ln : ℤ) - (ld : ℤ) + 1 := by
    rw [← Int.lt_zpow_iff_log_lt (by norm_num) ha]
    exact_mod_cast hupper
  have hlog_ge : (ln : ℤ) - (ld : ℤ) - 1 ≤ Int.log 2 a := by
    rw [← Int.zpow_le_iff_le_log (by norm_num) ha]
    exact_mod_cast hlower
  unfold binaryExponent
  simp only [floorLog2_eq_log2, ← hln, ← hld]
  split_ifs with hk
  · have : (ln : ℤ) - (ld : ℤ) ≤ Int.log 2 a := by
      rw [← Int.zpow_le_iff_le_log (by norm_num) ha]
      exact_mod_cast hk
    omega
  · have : Int.log 2 a < (ln : ℤ) - (ld : ℤ) := by
      rw [← Int.lt_zpow_iff_log_lt (by norm_num) ha]
      push_neg at hk
      exact_mod_cast hk
    omega

theorem ulpExponent_eq {a : ℚ} (ha : 0 < a) :
    ulpExponent a = max (Int.log 2 a) (-1022) - 52 := by
  unfold ulpExponent
  rw [binaryExponent_eq_log ha]

theorem ulpExponent_mono {x y : ℚ} (hx : 0 < x) (h : x ≤ y) : ulpExponent x ≤ ulpExponent y := by
  rw [ulpExponent_eq hx, ulpExponent_eq (lt_of_lt_of_le hx h)]
  have := Int.log_mono_right (b := 2) hx h
  omega

/-- Rounding a magnitude that is a whole number of units gives it back. -/
theorem roundHalfEven_mul_zpow (n : ℤ) (e : ℤ) :
    (roundHalfEven ((n : ℚ) * (2 : ℚ) ^ e / (2 : ℚ) ^ e) : ℚ) * (2 : ℚ) ^ e = (n : ℚ) * (2 : ℚ) ^ e := by
  rw [mul_div_assoc, div_self (two_zpow_pos e).ne.symm, mul_one, roundHalfEven_intCast]

theorem roundMagnitude_mono {x y : ℚ} (hx : 0 ≤ x) (h : x ≤ y) :
    roundMagnitude x ≤ roundMagnitude y := by
  rcases hx.lt_or_eq with hx0 | hx0
  swap
  · rw [← hx0]
    have : roundMagnitude 0 = 0 := by simp [roundMagnitude]
    rw [this]
    exact roundMagnitude_nonneg (hx.trans h)
  have hy0 : 0 < y := lt_of_lt_of_le hx0 h
  have hxe : roundMagnitude x = (roundHalfEven (x / (2 : ℚ) ^ ulpExponent x) : ℚ) * (2 : ℚ) ^ ulpExponent x := by
    simp [roundMagnitude, hx0.ne.symm]
  have hye : roundMagnitude y = (roundHalfEven (y / (2 : ℚ) ^ ulpExponent y) : ℚ) * (2 : ℚ) ^ ulpExponent y := by
    simp [roundMagnitude, hy0.ne.symm]
  rcases (ulpExponent_mono hx0 h).lt_or_eq with hlt | heq
  · -- different binades: the power of two between them separates the roundings
    set L := Int.log 2 y with hL
    have hexy : ulpExponent y = L - 52 := by
      rw [ulpExponent_eq hx0, ulpExponent_eq hy0] at hlt
      rw [ulpExponent_eq hy0]
      omega
    have hlogx : Int.log 2 x < L := by
      rw [ulpExponent_eq hx0, ulpExponent_eq hy0] at hlt
      omega
    have hxP : x < (2 : ℚ) ^ L := by
      have := Int.lt_zpow_succ_log_self (b := 2) (by norm_num) x
      have h2 : (2 : ℚ) ^ (Int.log 2 x + 1) ≤ (2 : ℚ) ^ L :=
        zpow_le_zpow_right₀ (by norm_num) (by omega)
      have h3 : x < ((2 : ℕ) : ℚ) ^ (Int.log 2 x + 1) := this
      norm_num at h3
      exact lt_of_lt_of_le h3 h2
    have hPy : (2 : ℚ) ^ L ≤ y := by
      have := Int.zpow_log_le_self (b := 2) (r := y) (by norm_num) hy0
      norm_num at this
      exact this
    -- the power of two is a whole number of units on either side
    have hPx : (2 : ℚ) ^ L = (((2 : ℤ) ^ (L - ulpExponent x).toNat : ℤ) : ℚ) * (2 : ℚ) ^ ulpExponent x := by
      have hnn : 0 ≤ L - ulpExponent x := by omega
      push_cast
      rw [← zpow_natCast, Int.toNat_of_nonneg hnn, ← zpow_add₀ (by norm_num)]
      congr 1
      ring
    have hPy2 : (2 : ℚ) ^ L = (((2 : ℤ) ^ 52 : ℤ) : ℚ) * (2 : ℚ) ^ ulpExponent y := by
      have h52 : (((2 : ℤ) ^ 52 : ℤ) : ℚ) = (2 : ℚ) ^ (52 : ℤ) := by norm_num
      rw [h52, hexy, ← zpow_add₀ (by norm_num)]
      congr 1
      ring
    have h1 : roundMagnitude x ≤ (2 : ℚ) ^ L := by
      rw [hxe]
      have hm : roundHalfEven (x / (2 : ℚ) ^ ulpExponent x) ≤
          roundHalfEven ((2 : ℚ) ^ L / (2 : ℚ) ^ ulpExponent x) :=
        roundHalfEven_mono (div_le_div_of_nonneg_right hxP.le (two_zpow_pos _).le)
      have hm2 : (roundHalfEven (x / (2 : ℚ) ^ ulpExponent x) : ℚ) ≤
          (roundHalfEven ((2 : ℚ) ^ L / (2 : ℚ) ^ ulpExponent x) : ℚ) := by exact_mod_cast hm
      calc (roundHalfEven (x / (2 : ℚ) ^ ulpExponent x) : ℚ) * (2 : ℚ) ^ ulpExponent x
          ≤ (roundHalfEven ((2 : ℚ) ^ L / (2 : ℚ) ^ ulpExponent x) : ℚ) * (2 : ℚ) ^ ulpExponent x :=
            mul_le_mul_of_nonneg_right hm2 (two_zpow_pos _).le
        _ = (2 : ℚ) ^ L := by
            conv_lhs => rw [hPx]
            rw [roundHalfEven_mul_zpow]
            exact hPx.symm
    have h2 : (2 : ℚ) ^ L ≤ roundMagnitude y := by
      rw [hye]
      have hm : roundHalfEven ((2 : ℚ) ^ L / (2 : ℚ) ^ ulpExponent y) ≤
          roundHalfEven (y / (2 : ℚ) ^ ulpExponent y) :=
        roundHalfEven_mono (div_le_div_of_nonneg_right hPy (two_zpow_pos _).le)
      have hm2 : (roundHalfEven ((2 : ℚ) ^ L / (2 : ℚ) ^ ulpExponent y) : ℚ) ≤
          (roundHalfEven (y / (2 : ℚ) ^ ulpExponent y) : ℚ) := by exact_mod_cast hm
      calc (2 : ℚ) ^ L
          = (roundHalfEven ((2 : ℚ) ^ L / (2 : ℚ) ^ ulpExponent y) : ℚ) * (2 : ℚ) ^ ulpExponent y := by
            conv_rhs => rw [hPy2]
            rw [roundHalfEven_mul_zpow]
            exact hPy2
        _ ≤ (roundHalfEven (y / (2 : ℚ) ^ ulpExponent y) : ℚ) * (2 : ℚ) ^ ulpExponent y :=
            mul_le_mul_of_nonneg_right hm2 (two_zpow_pos _).le
    exact h1.trans h2
  · rw [hxe, hye, heq]
    have hm : roundHalfEven (x / (2 : ℚ) ^ ulpExponent y) ≤ roundHalfEven (y / (2 : ℚ) ^ ulpExponent y) :=
      roundHalfEven_mono (div_le_div_of_nonneg_right h (two_zpow_pos _).le)
    have hm2 : (roundHalfEven (x / (2 : ℚ) ^ ulpExponent y) : ℚ) ≤
        (roundHalfEven (y / (2 : ℚ) ^ ulpExponent y) : ℚ) := by exact_mod_cast hm
    exact mul_le_mul_of_nonneg_right hm2 (two_zpow_pos _).le

/-- Float64 rounding is monotone. -/
theorem roundFloat64_mono {x y : ℚ} (h : x ≤ y) : roundFloat64 x ≤ roundFloat64 y := by
  unfold roundFloat64
  split_ifs with hx hy hy
  · exact neg_le_neg (roundMagnitude_mono (by linarith) (by linarith))
  · have h1 := roundMagnitude_nonneg (a := -x) (by linarith)
    have h2 := roundMagnitude_nonneg (a := y) (by linarith)
    linarith
  · linarith
  · exact roundMagnitude_mono (by linarith) h

theorem roundFloat64_zero : roundFloat64 0 = 0 := by
  simp [roundFloat64, roundMagnitude]

set_option maxRecDepth 4000 in
theorem roundFloat64_one : roundFloat64 1 = 1 := by decide!

theorem roundFloat64_nonneg {q : ℚ} (h : 0 ≤ q) : 0 ≤ roundFloat64 q := by
  have := roundFloat64_mono h
  rwa [roundFloat64_zero] at this

/-- A magnitude that is a whole number of its units in the last place is a
`float64`: rounding leaves it alone. -/
theorem roundMagnitude_of_units {a : ℚ} (n : ℤ) (ha : a ≠ 0)
    (h : a = (n : ℚ) * (2 : ℚ) ^ ulpExponent a) : roundMagnitude a = a := by
  have hdiv : a / (2 : ℚ) ^ ulpExponent a = (n : ℚ) := by
    rw [div_eq_iff (two_zpow_pos _).ne.symm]
    exact h
  unfold roundMagnitude
  rw [if_neg ha, hdiv, roundHalfEven_intCast]
  exact h.symm

/-- The conversion `float64(n)` is exact below `2^53`. -/
theorem f64ofInt_natCast_of_lt (n : ℕ) (h : n < 2 ^ 53) : f64ofInt (n : ℤ) = (n : ℚ) := by
  unfold f64ofInt roundFloat64
  have hn0 : ¬ (((n : ℤ) : ℚ) < 0) := by
    push_neg
    exact_mod_cast Nat.zero_le n
  rw [if_neg hn0]
  rcases Nat.eq_zero_or_pos n with rfl | hpos
  · simp [roundMagnitude]
  have hcast : (((n : ℤ) : ℚ)) = ((n : ℕ) : ℚ) := by push_cast; rfl
  rw [hcast]
  have hlog : Int.log 2 ((n : ℕ) : ℚ) = (Nat.log 2 n : ℤ) := Int.log_natCast 2 n
  have hlt : Nat.log 2 n < 53 := Nat.log_lt_of_lt_pow (by omega) h
  have hexp : ulpExponent ((n : ℕ) : ℚ) = -((52 - Nat.log 2 n : ℕ) : ℤ) := by
    rw [ulpExponent_eq (by exact_mod_cast hpos), hlog]
    omega
  apply roundMagnitude_of_units ((n : ℤ) * (2 : ℤ) ^ (52 - Nat.log 2 n))
  · exact_mod_cast hpos.ne.symm
  · rw [hexp, zpow_neg, zpow_natCast]
    push_cast
    have h2 : ((2 : ℚ) ^ (52 - Nat.log 2 n)) ≠ 0 := by positivity
    field_simp

/-! ## The values of float64 rounding are float64 numbers -/

theorem ulpExponent_ge (a : ℚ) : -1074 ≤ ulpExponent a := by
  unfold ulpExponent
  omega

/-- A magnitude below `2^(e+53)` that is a whole number of `2^e`, with
`e ≥ -1074`, is a `float64`. -/
theorem roundMagnitude_of_lt {v : ℚ} (m : ℕ) (e : ℤ) (he : -1074 ≤ e) (hm0 : 0 < m)
    (hm : m < 2 ^ 53) (hv : v = (m : ℚ) * (2 : ℚ) ^ e) : roundMagnitude v = v := by
  have hvpos : 0 < v := by
    rw [hv]
    exact mul_pos (by exact_mod_cast hm0) (two_zpow_pos e)
  have hlog : Int.log 2 v < 53 + e := by
    rw [← Int.lt_zpow_iff_log_lt (by norm_num) hvpos, hv]
    have h1 : (m : ℚ) < (2 : ℚ) ^ (53 : ℤ) := by
      have : (m : ℚ) < ((2 ^ 53 : ℕ) : ℚ) := by exact_mod_cast hm
      norm_num at this ⊢
      exact this
    calc (m : ℚ) * (2 : ℚ) ^ e < (2 : ℚ) ^ (53 : ℤ) * (2 : ℚ) ^ e :=
          mul_lt_mul_of_pos_right h1 (two_zpow_pos e)
      _ = ((2 : ℕ) : ℚ) ^ (53 + e) := by
          rw [← zpow_add₀ (by norm_num)]
          norm_num
  have hle : ulpExponent v ≤ e := by
    rw [ulpExponent_eq hvpos]
    omega
  apply roundMagnitude_of_units ((m : ℤ) * (2 : ℤ) ^ (e - ulpExponent v).toNat) hvpos.ne.symm
  have hnn : 0 ≤ e - ulpExponent v := by omega
  push_cast
  rw [mul_assoc, ← zpow_natCast, Int.toNat_of_nonneg hnn, ← zpow_add₀ (by norm_num)]
  rw [hv]
  congr 2
  ring

/-- The power of two `2^(e+53)` with `e ≥ -1074` is a `float64`. -/
theorem roundMagnitude_two_zpow (e : ℤ) (he : -1074 ≤ e) :
    roundMagnitude ((2 : ℚ) ^ (e + 53)) = (2 : ℚ) ^ (e + 53) := by
  have hpos := two_zpow_pos (e + 53)
  have hlog : Int.log 2 ((2 : ℚ) ^ (e + 53)) = e + 53 := by
    have := Int.log_zpow (R := ℚ) (b := 2) (by norm_num) (e + 53)
    norm_num at this
    exact this
  have hexp : ulpExponent ((2 : ℚ) ^ (e + 53)) = e + 1 := by
    rw [ulpExponent_eq hpos, hlog]
    omega
  apply roundMagnitude_of_units ((2 : ℤ) ^ 52) hpos.ne.symm
  rw [hexp]
  have h52 : (((2 : ℤ) ^ 52 : ℤ) : ℚ) = (2 : ℚ) ^ (52 : ℤ) := by norm_num
  rw [h52, ← zpow_add₀ (by norm_num)]
  congr 1
  ring

/-- Rounding a magnitude twice is rounding it once. -/
theorem roundMagnitude_idem {a : ℚ} (ha : 0 ≤ a) :
    roundMagnitude (roundMagnitude a) = roundMagnitude a := by
  rcases ha.lt_or_eq with hpos | h0
  swap
  · rw [← h0]
    simp [roundMagnitude]
  set e := ulpExponent a with he
  have hee : -1074 ≤ e := ulpExponent_ge a
  have hval : roundMagnitude a = (roundHalfEven (a / (2 : ℚ) ^ e) : ℚ) * (2 : ℚ) ^ e := by
    simp [roundMagnitude, hpos.ne.symm, he]
  have hnn : 0 ≤ roundHalfEven (a / (2 : ℚ) ^ e) :=
    roundHalfEven_nonneg (div_nonneg ha (two_zpow_pos _).le)
  -- the scaled magnitude lies below 2^53, so its rounding is at most 2^53
  have hlt : a / (2 : ℚ) ^ e < (2 : ℚ) ^ (53 : ℤ) := by
    rw [div_lt_iff₀ (two_zpow_pos e), ← zpow_add₀ (by norm_num)]
    have h1 := Int.lt_zpow_succ_log_self (b := 2) (by norm_num) a
    have h2 : ((2 : ℕ) : ℚ) ^ (Int.log 2 a + 1) ≤ (2 : ℚ) ^ (53 + e) := by
      have : Int.log 2 a + 1 ≤ 53 + e := by
        rw [he, ulpExponent_eq hpos]
        omega
      have := zpow_le_zpow_right₀ (a := (2 : ℚ)) (by norm_num) this
      norm_num at this ⊢
      exact this
    exact lt_of_lt_of_le h1 h2
  have hmle : roundHalfEven (a / (2 : ℚ) ^ e) ≤ 2 ^ 53 := by
    have := roundHalfEven_mono hlt.le
    have h53 : ((2 : ℚ) ^ (53 : ℤ)) = (((2 : ℤ) ^ 53 : ℤ) : ℚ) := by norm_num
    rw [h53, roundHalfEven_intCast] at this
    exact this
  obtain ⟨m, hm⟩ := Int.eq_ofNat_of_zero_le hnn
  rw [hval, hm]
  rw [hm] at hmle
  have hmle' : m ≤ 2 ^ 53 := by exact_mod_cast hmle
  rcases Nat.eq_zero_or_pos m with hz | hmpos
  · subst hz
    simp [roundMagnitude]
  rcases hmle'.lt_or_eq with hlt53 | heq53
  · exact roundMagnitude_of_lt m e hee hmpos hlt53 (by push_cast; rfl)
  · have hv : (((m : ℕ) : ℤ) : ℚ) * (2 : ℚ) ^ e = (2 : ℚ) ^ (e + 53) := by
      rw [heq53, zpow_add₀ (by norm_num)]
      norm_num
      ring
    rw [hv]
    exact roundMagnitude_two_zpow e hee

/-- Rounding to `float64` twice is rounding once: the values of `roundFloat64`
are `float64` numbers. -/
theorem roundFloat64_idem (q : ℚ) : roundFloat64 (roundFloat64 q) = roundFloat64 q := by
  unfold roundFloat64
  by_cases hq : q < 0
  · simp only [hq, if_true]
    have hnn : 0 ≤ roundMagnitude (-q) := roundMagnitude_nonneg (by linarith)
    rcases hnn.lt_or_eq with hpos | hz
    · rw [if_pos (by linarith), neg_neg, roundMagnitude_idem (by linarith)]
    · rw [← hz]
      simp [roundMagnitude]
  · simp only [hq, if_false]
    have hnn : 0 ≤ roundMagnitude q := roundMagnitude_nonneg (by linarith)
    rw [if_neg (by linarith), roundMagnitude_idem (by linarith)]

/-! ## The scores `json.Unmarshal` stores are float64 numbers -/

theorem isFloat64_zero : IsFloat64 0 := roundFloat64_zero

theorem isFloat64_roundFloat64 (q : ℚ) : IsFloat64 (roundFloat64 q) := roundFloat64_idem q

set_option maxRecDepth 4000 in
theorem scoreThreshold_eq : scoreThreshold = 5404319552844595 / 9007199254740992 := by
  decide!

theorem scoreThreshold_lt : scoreThreshold < 6 / 10 := by
  rw [scoreThreshold_eq]
  norm_num

/-- No `float64` lies above the constant `0.6` of line 125 and at or below the
real number 0.6: for a `float64`, passing the test of line 125 is being greater
than 0.6. -/
theorem gt_scoreThreshold_iff {x : ℚ} (hx : IsFloat64 x) : x > scoreThreshold ↔ x > 6 / 10 := by
  constructor
  · intro h
    by_contra hle
    have h1 := roundFloat64_mono (not_lt.mp hle)
    rw [hx] at h1
    exact absurd h (not_lt.mpr h1)
  · intro h
    exact lt_trans scoreThreshold_lt h

theorem decodeFloat_isFloat64 (cur : ℚ) (v : JSON) (saved : Option JSONError)
    (h : IsFloat64 cur) : IsFloat64 (decodeFloat cur v saved).1 := by
  unfold decodeFloat
  split
  · exact h
  · rename_i lit
    cases hp : parseFloat64 lit with
    | none => exact h
    | some x =>
      simp only
      unfold parseFloat64 at hp
      simp only at hp
      split_ifs at hp
      injection hp with hp
      rw [← hp]
      exact isFloat64_roundFloat64 _
  · exact h

theorem decodeEntryMember_isFloat64 (acc : RerankEntry × Option JSONError) (m : String × JSON)
    (h : IsFloat64 acc.1.Score) : IsFloat64 (decodeEntryMember acc m).1.Score := by
  unfold decodeEntryMember
  split_ifs
  · exact h
  · exact decodeFloat_isFloat64 _ _ _ h
  · exact h

theorem foldl_decodeEntryMember_isFloat64 (members : List (String × JSON))
    (acc : RerankEntry × Option JSONError) (h : IsFloat64 acc.1.Score) :
    IsFloat64 (members.foldl decodeEntryMember acc).1.Score := by
  induction members generalizing acc with
  | nil => exact h
  | cons m rest ih => exact ih _ (decodeEntryMember_isFloat64 acc m h)

theorem decodeEntry_isFloat64 (cur : RerankEntry) (v : JSON) (saved : Option JSONError)
    (h : IsFloat64 cur.Score) : IsFloat64 (decodeEntry cur v saved).1.Score := by
  unfold decodeEntry
  split
  · exact h
  · exact foldl_decodeEntryMember_isFloat64 _ _ h
  · exact h

theorem decodeEntries_isFloat64 (cur : List RerankEntry) (items : List JSON)
    (saved : Option JSONError) (h : ∀ e ∈ cur, IsFloat64 e.Score) :
    ∀ e ∈ (decodeEntries cur items saved).1, IsFloat64 e.Score := by
  induction items generalizing cur saved with
  | nil => simp [decodeEntries]
  | cons item rest ih =>
    unfold decodeEntries
    simp only
    intro e he
    rcases List.mem_cons.mp he with rfl | he'
    · apply decodeEntry_isFloat64
      rcases cur with _ | ⟨c, cs⟩
      · exact isFloat64_zero
      · exact h c (List.mem_cons_self _ _)
    · refine ih cur.tail _ (fun x hx => h x (List.mem_of_mem_tail hx)) e he'

theorem decodeResults_isFloat64 (cur : List RerankEntry) (v : JSON) (saved : Option JSONError)
    (h : ∀ e ∈ cur, IsFloat64 e.Score) :
    ∀ e ∈ (decodeResults cur v saved).1, IsFloat64 e.Score := by
  unfold decodeResults
  split
  · simp
  · exact decodeEntries_isFloat64 _ _ _ h
  · exact h

theorem foldl_decodeResultMember_isFloat64 (members : List (String × JSON))
    (acc : RerankResult × Option JSONError) (h : ∀ e ∈ acc.1.Results, IsFloat64 e.Score) :
    ∀ e ∈ (members.foldl decodeResultMember acc).1.Results, IsFloat64 e.Score := by
  induction members generalizing acc with
  | nil => exact h
  | cons m rest ih =>
    rw [List.foldl_cons]
    apply ih
    unfold decodeResultMember
    split_ifs
    · exact decodeResults_isFloat64 _ _ _ h
    · exact h

/-- Every score `json.Unmarshal` stores in a `RerankResult` is a `float64`. -/
theorem jsonUnmarshal_scores_isFloat64 (data : String) (rerankResult : RerankResult)
    (h : jsonUnmarshal data = Except.ok rerankResult) :
    ∀ e ∈ rerankResult.Results, IsFloat64 e.Score := by
  unfold jsonUnmarshal at h
  cases hp : parseJSON data with
  | none => simp [hp] at h
  | some v =>
    simp only [hp] at h
    have hdec : ∀ e ∈ (decodeRerankResult v).1.Results, IsFloat64 e.Score := by
      unfold decodeRerankResult
      split
      · simp
      · exact foldl_decodeResultMember_isFloat64 _ _ (by simp)
      · simp
    rcases hd : decodeRerankResult v with ⟨r, err⟩
    rw [hd] at h hdec
    cases err with
    | none =>
      simp only at h
      injection h with h
      rw [← h]
      exact hdec
    | some e => simp at h

/-! ## Float64 rounding is to nearest -/

theorem roundHalfEven_error (q : ℚ) : |(roundHalfEven q : ℚ) - q| ≤ 1 / 2 := by
  have h1 : (⌊q⌋ : ℚ) ≤ q := Int.floor_le q
  have h2 : q < (⌊q⌋ : ℚ) + 1 := Int.lt_floor_add_one q
  unfold roundHalfEven
  simp only
  rw [abs_le]
  split_ifs with ha hb hc
  · constructor <;> linarith
  · push_cast
    constructor <;> linarith
  · constructor <;> linarith
  · push_cast
    constructor <;> linarith

/-- The rounding of a magnitude is within half a unit in the last place. -/
theorem roundMagnitude_error {a : ℚ} (ha : 0 < a) :
    |roundMagnitude a - a| ≤ (2 : ℚ) ^ ulpExponent a / 2 := by
  have hpos := two_zpow_pos (ulpExponent a)
  have hval : roundMagnitude a - a
      = ((roundHalfEven (a / (2 : ℚ) ^ ulpExponent a) : ℚ) - a / (2 : ℚ) ^ ulpExponent a)
        * (2 : ℚ) ^ ulpExponent a := by
    simp only [roundMagnitude, ha.ne.symm, if_false]
    field_simp
  rw [hval, abs_mul, abs_of_pos hpos]
  have := roundHalfEven_error (a / (2 : ℚ) ^ ulpExponent a)
  calc |(roundHalfEven (a / (2 : ℚ) ^ ulpExponent a) : ℚ) - a / (2 : ℚ) ^ ulpExponent a|
        * (2 : ℚ) ^ ulpExponent a
      ≤ 1 / 2 * (2 : ℚ) ^ ulpExponent a := mul_le_mul_of_nonneg_right this hpos.le
    _ = (2 : ℚ) ^ ulpExponent a / 2 := by ring

/-- Float64 rounding moves a number by at most half a unit in the last
place. -/
theorem roundFloat64_error (q : ℚ) (hq : q ≠ 0) :
    |roundFloat64 q - q| ≤ (2 : ℚ) ^ ulpExponent |q| / 2 := by
  unfold roundFloat64
  split_ifs with hneg
  · rw [abs_of_neg hneg]
    have := roundMagnitude_error (a := -q) (by linarith)
    rwa [show -roundMagnitude (-q) - q = -(roundMagnitude (-q) - -q) by ring, abs_neg]
  · have hpos : 0 < q := lt_of_le_of_ne (not_lt.mp hneg) (Ne.symm hq)
    rw [abs_of_pos hpos]
    exact roundMagnitude_error hpos

/-! ## The model-based reranker: filtering and projection -/

theorem indexDocument_of_valid (documents : List Document) (i : Int)
    (h0 : 0 ≤ i) (h1 : i < documents.length) :
    ∃ d, indexDocument documents i = some d ∧ documents[i.toNat]? = some d ∧
      documents.getD i.toNat ⟨0, "", [], 0⟩ = d := by
  have hlt : i.toNat < documents.length := by omega
  refine ⟨documents[i.toNat], ?_, ?_, ?_⟩
  · simp [indexDocument, h0, List.getElem?_eq_getElem hlt]
  · exact List.getElem?_eq_getElem hlt
  · simp [List.getD, List.getElem?_eq_getElem hlt]

/-- The loop of `Rerank` appends to `acc` the projection of the kept entries
when every index it looks up is in range. -/
theorem selectLoop_of_valid (documents : List Document) (results : List RerankEntry)
    (acc : List RankedDocument) (hvalid : IndicesValid documents results) :
    selectLoop documents results acc = GoResult.ret (acc ++ (keptEntries results).map
      (fun e => { Index := e.Index,
                  Content := (documents.getD e.Index.toNat ⟨0, "", [], 0⟩).Content,
                  Score := e.Score })) := by
  induction results generalizing acc with
  | nil => simp [selectLoop, keptEntries]
  | cons e rest ih =>
    have hrest : IndicesValid documents rest := fun x hx => hvalid x (List.mem_cons_of_mem _ hx)
    obtain ⟨h0, h1⟩ := hvalid e (List.mem_cons_self _ _)
    obtain ⟨d, hd, -, hget⟩ := indexDocument_of_valid documents e.Index h0 h1
    unfold selectLoop
    by_cases hs : e.Score > scoreThreshold
    · simp only [hs, if_true, hd]
      rw [ih _ hrest]
      subst hget
      simp [keptEntries, List.filter_cons, hs, List.getD_eq_getElem?_getD]
    · simp only [hs, if_false]
      rw [ih _ hrest]
      simp [keptEntries, List.filter_cons, hs]

/-- What `Rerank` does once the exchange succeeded and the response parsed. -/
theorem Rerank_of_parsed (scoring : ScoringCollaborator) (content : String)
    (documents : List Document) (response : String) (rerankResult : RerankResult)
    (hreply : scoring (buildPrompt content documents) = Except.ok response)
    (hparse : jsonUnmarshal (cleanResponse response) = Except.ok rerankResult) :
    Rerank scoring content documents = selectLoop documents rerankResult.Results [] := by
  simp [Rerank, hreply, hparse]

/-- What `Rerank` does once the exchange succeeded and the response did not
parse. -/
theorem Rerank_of_unparsed (scoring : ScoringCollaborator) (content : String)
    (documents : List Document) (response : String) (e : JSONError)
    (hreply : scoring (buildPrompt content documents) = Except.ok response)
    (hparse : jsonUnmarshal (cleanResponse response) = Except.error e) :
    Rerank scoring content documents = GoResult.err (RerankError.parseFailed e response) := by
  simp [Rerank, hreply, hparse]

/-- The entries that pass the test of line 125 are those with a score above
0.6, when the scores are `float64` numbers. -/
theorem keptEntries_eq_filter (results : List RerankEntry)
    (h : ∀ e ∈ results, IsFloat64 e.Score) :
    keptEntries results = results.filter (fun e => decide (e.Score > 6 / 10)) := by
  unfold keptEntries
  apply List.filter_congr
  intro e he
  rw [decide_eq_decide]
  exact gt_scoreThreshold_iff (h e he)

/-- C1: when the exchange succeeds and the cleaned response parses to a
`results` array whose indices are all positions of the candidate list, `Rerank`
returns exactly the entries with a score above 0.6, in the order of the array,
each as a `RankedDocument` with the entry's index, the content of the candidate
at that index and the entry's score; no returned document has a score of 0.6
or less. -/
theorem Rerank_returns_entries_above_threshold (scoring : ScoringCollaborator)
    (content : String) (documents : List Document) (response : String)
    (rerankResult : RerankResult)
    (hreply : scoring (buildPrompt content documents) = Except.ok response)
    (hparse : jsonUnmarshal (cleanResponse response) = Except.ok rerankResult)
    (hvalid : IndicesValid documents rerankResult.Results) :
    Rerank scoring content documents =
      GoResult.ret ((rerankResult.Results.filter (fun e => decide (e.Score > 6 / 10))).map
        (fun e => { Index := e.Index,
                    Content := (documents.getD e.Index.toNat ⟨0, "", [], 0⟩).Content,
                    Score := e.Score }))
    ∧ ∀ out, Rerank scoring content documents = GoResult.ret out →
        ∀ d ∈ out, ¬ d.Score ≤ 6 / 10 := by
  have hrun := Rerank_of_parsed scoring content documents response rerankResult hreply hparse
  have hsel := selectLoop_of_valid documents rerankResult.Results [] hvalid
  rw [hsel, keptEntries_eq_filter _ (jsonUnmarshal_scores_isFloat64 _ _ hparse)] at hrun
  simp only [List.nil_append] at hrun
  refine ⟨hrun, ?_⟩
  intro out hout d hd
  rw [hrun] at hout
  injection hout with hout
  subst hout
  simp only [List.mem_map, List.mem_filter, decide_eq_true_eq] at hd
  obtain ⟨e, ⟨-, hscore⟩, rfl⟩ := hd
  exact not_le.mpr hscore

set_option maxRecDepth 4000 in
theorem Rerank_returns_entries_above_threshold_witness :
    Rerank (fun _ => Except.ok sampleResponse) "한국의 수도는 어딜까?" sampleDocuments =
      GoResult.ret [⟨0, "한국의 수도는 서울입니다.", 8106479329266893 / 9007199254740992⟩,
                    ⟨2, "테스트입니다.", 5494391545392005 / 9007199254740992⟩] := by
  have h := (Rerank_returns_entries_above_threshold (fun _ => Except.ok sampleResponse)
    "한국의 수도는 어딜까?" sampleDocuments sampleResponse
    ⟨[⟨0, 8106479329266893 / 9007199254740992⟩, ⟨1, 5404319552844595 / 9007199254740992⟩,
      ⟨2, 5494391545392005 / 9007199254740992⟩]⟩
    rfl (by decide!) (by decide!)).1
  rw [h]
  decide!

/-! ## The model-based reranker: responses that do not parse -/

/-- An object none of whose keys selects the field `Results` leaves the
`RerankResult` as it is. -/
theorem foldl_decodeResultMember_of_no_results (members : List (String × JSON))
    (acc : RerankResult × Option JSONError)
    (h : ∀ m ∈ members, fieldMatches "results" m.1 = false) :
    members.foldl decodeResultMember acc = acc := by
  induction members generalizing acc with
  | nil => rfl
  | cons m rest ih =>
    have hm := h m (List.mem_cons_self _ _)
    rw [List.foldl_cons]
    have hstep : decodeResultMember acc m = acc := by simp [decodeResultMember, hm]
    rw [hstep]
    exact ih acc (fun x hx => h x (List.mem_cons_of_mem _ hx))

/-- C2, the counterexample: the response `{}` is valid JSON with no `results`
key, and `Rerank` returns an empty list without an error. -/
theorem Rerank_empty_object_is_not_an_error :
    Rerank (fun _ => Except.ok "\x7b\x7d") "한국의 수도는 어딜까?" sampleDocuments = GoResult.ret []
    ∧ ¬ ∃ e, Rerank (fun _ => Except.ok "\x7b\x7d") "한국의 수도는 어딜까?" sampleDocuments
        = GoResult.err e := by
  have h : Rerank (fun _ => Except.ok "\x7b\x7d") "한국의 수도는 어딜까?" sampleDocuments
      = GoResult.ret [] := by decide
  refine ⟨h, ?_⟩
  rintro ⟨e, he⟩
  rw [h] at he
  cases he

/-- C2, amended: when the cleaned response is not valid JSON, `Rerank` returns
the parse error with the raw response attached, and no list; when it is a JSON
object none of whose keys selects `results`, `Rerank` returns an empty list and
no error. -/
theorem Rerank_on_malformed_response (scoring : ScoringCollaborator) (content : String)
    (documents : List Document) (response : String)
    (hreply : scoring (buildPrompt content documents) = Except.ok response) :
    (parseJSON (cleanResponse response) = none →
      Rerank scoring content documents
        = GoResult.err (RerankError.parseFailed JSONError.invalidJSON response))
    ∧ (∀ members, parseJSON (cleanResponse response) = some (JSON.obj members) →
        (∀ m ∈ members, fieldMatches "results" m.1 = false) →
        Rerank scoring content documents = GoResult.ret []) := by
  constructor
  · intro hnone
    apply Rerank_of_unparsed scoring content documents response _ hreply
    simp [jsonUnmarshal, hnone]
  · intro members hobj hkeys
    have hdec : decodeRerankResult (JSON.obj members) = (⟨[]⟩, none) := by
      simp only [decodeRerankResult]
      exact foldl_decodeResultMember_of_no_results members _ hkeys
    have hparse : jsonUnmarshal (cleanResponse response) = Except.ok ⟨[]⟩ := by
      simp [jsonUnmarshal, hobj, hdec]
    rw [Rerank_of_parsed scoring content documents response ⟨[]⟩ hreply hparse]
    rfl

theorem Rerank_on_malformed_response_witness :
    Rerank (fun _ => Except.ok "Sure! Here are the scores: 0.9, 0.2") "q" sampleDocuments
      = GoResult.err (RerankError.parseFailed JSONError.invalidJSON
          "Sure! Here are the scores: 0.9, 0.2")
    ∧ Rerank (fun _ => Except.ok " \x7b\"scores\":[0.9,0.2]\x7d ") "q" sampleDocuments
      = GoResult.ret [] :=
  ⟨(Rerank_on_malformed_response (fun _ => Except.ok "Sure! Here are the scores: 0.9, 0.2")
      "q" sampleDocuments "Sure! Here are the scores: 0.9, 0.2" rfl).1 rfl,
   (Rerank_on_malformed_response (fun _ => Except.ok " \x7b\"scores\":[0.9,0.2]\x7d ")
      "q" sampleDocuments " \x7b\"scores\":[0.9,0.2]\x7d " rfl).2
      [("scores", JSON.arr [JSON.num "0.9", JSON.num "0.2"])] rfl (by decide)⟩

/-! ## The model-based reranker: order of the returned documents -/

/-- C4, the counterexample: the reply scores candidate 1 before candidate 0,
both above the threshold; the returned indices are `1, 0`, not increasing. -/
theorem Rerank_follows_results_order_not_candidate_order :
    ∃ out, Rerank (fun _ => Except.ok
        "\x7b\"results\":[\x7b\"index\":1,\"score\":0.9\x7d,\x7b\"index\":0,\"score\":0.9\x7d]\x7d")
      "한국의 수도는 어딜까?" sampleDocuments = GoResult.ret out
      ∧ out = [⟨1, "한국의 수도는 서울이다.", 8106479329266893 / 9007199254740992⟩,
               ⟨0, "한국의 수도는 서울입니다.", 8106479329266893 / 9007199254740992⟩]
      ∧ ¬ List.Pairwise (fun a b : Int => a < b) (out.map (fun d => d.Index)) := by
  refine ⟨_, ?_, rfl, ?_⟩
  · set_option maxRecDepth 4000 in decide!
  · decide

/-- C4, amended: with valid indices, every returned document carries the
content of the input candidate at its index, the returned documents follow the
order of the `results` array (their indices are a subsequence of the indices of
the array), and the returned indices are strictly increasing whenever the
indices of the array are. -/
theorem Rerank_returns_candidates_in_results_order (scoring : ScoringCollaborator)
    (content : String) (documents : List Document) (response : String)
    (rerankResult : RerankResult)
    (hreply : scoring (buildPrompt content documents) = Except.ok response)
    (hparse : jsonUnmarshal (cleanResponse response) = Except.ok rerankResult)
    (hvalid : IndicesValid documents rerankResult.Results) :
    ∃ out, Rerank scoring content documents = GoResult.ret out
      ∧ (∀ d ∈ out, ∃ doc, 0 ≤ d.Index ∧ documents[d.Index.toNat]? = some doc
            ∧ d.Content = doc.Content)
      ∧ List.Sublist (out.map (fun d => d.Index)) (rerankResult.Results.map (fun e => e.Index))
      ∧ (List.Pairwise (fun a b : Int => a < b) (rerankResult.Results.map (fun e => e.Index)) →
          List.Pairwise (fun a b : Int => a < b) (out.map (fun d => d.Index))) := by
  have hrun := Rerank_of_parsed scoring content documents response rerankResult hreply hparse
  rw [selectLoop_of_valid documents rerankResult.Results [] hvalid] at hrun
  simp only [List.nil_append] at hrun
  refine ⟨_, hrun, ?_, ?_, ?_⟩
  · intro d hd
    simp only [List.mem_map, keptEntries, List.mem_filter] at hd
    obtain ⟨e, ⟨he, -⟩, rfl⟩ := hd
    obtain ⟨h0, h1⟩ := hvalid e he
    obtain ⟨doc, -, hdoc, hget⟩ := indexDocument_of_valid documents e.Index h0 h1
    exact ⟨doc, h0, hdoc, by simp only [hget]⟩
  · have hsub : List.Sublist (keptEntries rerankResult.Results) rerankResult.Results :=
      List.filter_sublist _
    simpa [List.map_map, Function.comp_def] using hsub.map (fun e : RerankEntry => e.Index)
  · intro hp
    have hsub : List.Sublist (keptEntries rerankResult.Results) rerankResult.Results :=
      List.filter_sublist _
    have := hp.sublist (hsub.map (fun e : RerankEntry => e.Index))
    simpa [List.map_map, Function.comp_def] using this

set_option maxRecDepth 4000 in
theorem Rerank_returns_candidates_in_results_order_witness :
    ∃ out, Rerank (fun _ => Except.ok sampleResponse) "한국의 수도는 어딜까?" sampleDocuments
        = GoResult.ret out
      ∧ (∀ d ∈ out, ∃ doc, 0 ≤ d.Index ∧ sampleDocuments[d.Index.toNat]? = some doc
            ∧ d.Content = doc.Content)
      ∧ List.Sublist (out.map (fun d => d.Index)) [0, 1, 2]
      ∧ (List.Pairwise (fun a b : Int => a < b) [0, 1, 2] →
          List.Pairwise (fun a b : Int => a < b) (out.map (fun d => d.Index))) :=
  Rerank_returns_candidates_in_results_order (fun _ => Except.ok sampleResponse)
    "한국의 수도는 어딜까?" sampleDocuments sampleResponse
    ⟨[⟨0, 8106479329266893 / 9007199254740992⟩, ⟨1, 5404319552844595 / 9007199254740992⟩,
      ⟨2, 5494391545392005 / 9007199254740992⟩]⟩
    rfl (by decide!) (by decide!)

/-! ## The rerankers on an empty candidate list -/

/-- C10, the counterexample: with no candidates and a response that is not
JSON, `Rerank` returns an error, not an empty result. -/
theorem Rerank_empty_candidates_can_fail :
    Rerank (fun _ => Except.ok "I have no documents to score.") "한국의 수도는 어딜까?" []
      = GoResult.err (RerankError.parseFailed JSONError.invalidJSON
          "I have no documents to score.") := by
  decide

/-- C10, amended: with an empty candidate list `FastRerank` returns an empty
result without an error, whatever the query; `Rerank` returns an empty result
without an error when the cleaned response parses to a `results` array with no
entry scoring above 0.6, and returns an error when the exchange fails or the
cleaned response does not parse. -/
theorem rerankers_on_empty_candidates (query : String) (scoring : ScoringCollaborator) :
    FastRerank query [] = GoResult.ret []
    ∧ (∀ response rerankResult,
        scoring (buildPrompt query []) = Except.ok response →
        jsonUnmarshal (cleanResponse response) = Except.ok rerankResult →
        (∀ e ∈ rerankResult.Results, ¬ e.Score > 6 / 10) →
        Rerank scoring query [] = GoResult.ret [])
    ∧ (∀ response e,
        scoring (buildPrompt query []) = Except.ok response →
        jsonUnmarshal (cleanResponse response) = Except.error e →
        Rerank scoring query [] = GoResult.err (RerankError.parseFailed e response))
    ∧ (∀ e, scoring (buildPrompt query []) = Except.error e →
        Rerank scoring query [] = GoResult.err (RerankError.transport e)) := by
  refine ⟨?_, ?_, ?_, ?_⟩
  · simp [FastRerank, scoreDocuments, sortSlice]
  · intro response rerankResult hreply hparse hlow
    rw [Rerank_of_parsed scoring query [] response rerankResult hreply hparse]
    have hlow : ∀ e ∈ rerankResult.Results, ¬ e.Score > scoreThreshold := fun e he hgt =>
      hlow e he ((gt_scoreThreshold_iff
        (jsonUnmarshal_scores_isFloat64 _ _ hparse e he)).mp hgt)
    generalize rerankResult.Results = results at hlow
    induction results with
    | nil => rfl
    | cons e rest ih =>
      unfold selectLoop
      have he := hlow e (List.mem_cons_self _ _)
      simp only [he, if_false]
      exact ih (fun x hx => hlow x (List.mem_cons_of_mem _ hx))
  · intro response e hreply hparse
    exact Rerank_of_unparsed scoring query [] response e hreply hparse
  · intro e hreply
    simp [Rerank, hreply]

set_option maxRecDepth 4000 in
theorem rerankers_on_empty_candidates_witness :
    FastRerank "한국의 수도는 어딜까?" [] = GoResult.ret []
    ∧ Rerank (fun _ => Except.ok "\x7b\"results\":[]\x7d") "한국의 수도는 어딜까?" []
        = GoResult.ret [] :=
  ⟨(rerankers_on_empty_candidates "한국의 수도는 어딜까?"
      (fun _ => Except.ok "\x7b\"results\":[]\x7d")).1,
   (rerankers_on_empty_candidates "한국의 수도는 어딜까?"
      (fun _ => Except.ok "\x7b\"results\":[]\x7d")).2.1 "\x7b\"results\":[]\x7d" ⟨[]⟩ rfl
      (by decide) (by simp)⟩

/-! ## The cleanup step -/

theorem dropWhile_append_of_all (p : Char → Bool) (a b : List Char)
    (h : ∀ c ∈ a, p c = true) : (a ++ b).dropWhile p = b.dropWhile p := by
  induction a with
  | nil => rfl
  | cons x xs ih =>
    have hx := h x (List.mem_cons_self _ _)
    simp only [List.cons_append, List.dropWhile_cons, hx, if_true]
    exact ih (fun c hc => h c (List.mem_cons_of_mem _ hc))

theorem dropWhile_of_head (p : Char → Bool) (x : Char) (xs : List Char) (h : p x = false) :
    (x :: xs).dropWhile p = x :: xs := by
  simp [List.dropWhile_cons, h]

theorem dropWhileEnd_append_of_all (p : Char → Bool) (a b : List Char)
    (h : ∀ c ∈ b, p c = true) : dropWhileEnd p (a ++ b) = dropWhileEnd p a := by
  unfold dropWhileEnd
  rw [List.reverse_append, dropWhile_append_of_all p b.reverse a.reverse
    (fun c hc => h c (List.mem_reverse.mp hc))]

theorem dropWhileEnd_of_last (p : Char → Bool) (xs : List Char) (x : Char) (h : p x = false) :
    dropWhileEnd p (xs ++ [x]) = xs ++ [x] := by
  unfold dropWhileEnd
  rw [List.reverse_append, List.reverse_singleton, List.singleton_append,
    dropWhile_of_head p x _ h, List.reverse_cons, List.reverse_reverse]

/-- Stripping from both ends the characters that satisfy `p` undoes a wrapping
in such characters of a text that neither begins nor ends with one. -/
theorem trim_wrapped (p : Char → Bool) (lead trail mid : List Char) (first last : Char)
    (hlead : ∀ c ∈ lead, p c = true) (htrail : ∀ c ∈ trail, p c = true)
    (hfirst : p first = false) (hlast : p last = false) :
    dropWhileEnd p ((lead ++ (first :: mid ++ [last]) ++ trail).dropWhile p)
      = first :: mid ++ [last] := by
  rw [List.append_assoc, dropWhile_append_of_all p lead _ hlead, List.cons_append,
    List.cons_append, dropWhile_of_head p first _ hfirst]
  rw [show first :: (mid ++ [last] ++ trail) = (first :: mid ++ [last]) ++ trail by simp,
    dropWhileEnd_append_of_all p _ trail htrail]
  exact dropWhileEnd_of_last p (first :: mid) last hlast

theorem isQuoteChar_not_space (c : Char) (h : isQuoteChar c = true) :
    unicodeIsSpace c = false := by
  simp only [isQuoteChar, Bool.or_eq_true, beq_iff_eq] at h
  rcases h with (h | h) | h <;> subst h <;> decide

/-- C6: for every text `j` that begins with an opening brace and ends with a
closing brace, wrapped in any number of the quote characters on both ends and
then in any amount of white space, the cleanup step of `Rerank` yields exactly
`j`, so the wrapped response is parsed as `j`. -/
theorem cleanResponse_unwraps (inner : List Char) (quotesBefore quotesAfter : List Char)
    (spaceBefore spaceAfter : List Char)
    (hq1 : ∀ c ∈ quotesBefore, isQuoteChar c = true)
    (hq2 : ∀ c ∈ quotesAfter, isQuoteChar c = true)
    (hs1 : ∀ c ∈ spaceBefore, unicodeIsSpace c = true)
    (hs2 : ∀ c ∈ spaceAfter, unicodeIsSpace c = true) :
    cleanResponse (String.mk (spaceBefore ++ (quotesBefore
        ++ (chOpenBrace :: inner ++ [chCloseBrace]) ++ quotesAfter) ++ spaceAfter))
      = String.mk (chOpenBrace :: inner ++ [chCloseBrace])
    ∧ jsonUnmarshal (cleanResponse (String.mk (spaceBefore ++ (quotesBefore
        ++ (chOpenBrace :: inner ++ [chCloseBrace]) ++ quotesAfter) ++ spaceAfter)))
      = jsonUnmarshal (String.mk (chOpenBrace :: inner ++ [chCloseBrace])) := by
  have hclean : cleanResponse (String.mk (spaceBefore ++ (quotesBefore
        ++ (chOpenBrace :: inner ++ [chCloseBrace]) ++ quotesAfter) ++ spaceAfter))
      = String.mk (chOpenBrace :: inner ++ [chCloseBrace]) := by
    -- the wrapped text, seen from the white space, begins and ends with a
    -- character that is not white space
    have hspace : trimSpace (String.mk (spaceBefore ++ (quotesBefore
          ++ (chOpenBrace :: inner ++ [chCloseBrace]) ++ quotesAfter) ++ spaceAfter))
        = String.mk (quotesBefore ++ (chOpenBrace :: inner ++ [chCloseBrace]) ++ quotesAfter) := by
      unfold trimSpace
      congr 1
      show dropWhileEnd unicodeIsSpace ((spaceBefore ++ (quotesBefore
          ++ (chOpenBrace :: inner ++ [chCloseBrace]) ++ quotesAfter) ++ spaceAfter).dropWhile
            unicodeIsSpace) = _
      have hne : quotesBefore ++ (chOpenBrace :: inner ++ [chCloseBrace]) ++ quotesAfter ≠ [] := by
        simp
      obtain ⟨first, rest, hfr⟩ := List.exists_cons_of_ne_nil hne
      obtain ⟨mid, last, hml⟩ : ∃ mid last, first :: rest = first :: mid ++ [last] := by
        rcases List.eq_nil_or_concat rest with hnil | ⟨mid, last, hcat⟩
        · exfalso
          have hlen := congrArg List.length hfr
          simp [hnil] at hlen
          omega
        · exact ⟨mid, last, by simp [hcat]⟩
      have hfirst : unicodeIsSpace first = false := by
        have hhead := congrArg List.head? hfr
        rcases quotesBefore with _ | ⟨q, qs⟩
        · simp at hhead
          rw [← hhead]
          decide
        · simp at hhead
          rw [← hhead]
          exact isQuoteChar_not_space q (hq1 q (List.mem_cons_self _ _))
      have hlast : unicodeIsSpace last = false := by
        have hl := congrArg List.getLast? (hfr.trans hml)
        rcases List.eq_nil_or_concat quotesAfter with hnil | ⟨qs, q, hcat⟩
        · subst hnil
          simp [List.getLast?_append, List.getLast?_cons] at hl
          rw [← hl]
          decide
        · subst hcat
          simp [List.getLast?_append, List.getLast?_cons] at hl
          rw [← hl]
          exact isQuoteChar_not_space q (hq2 q (by simp))
      rw [hfr, hml]
      exact trim_wrapped unicodeIsSpace spaceBefore spaceAfter mid first last hs1 hs2 hfirst hlast
    unfold cleanResponse
    rw [hspace]
    unfold trimQuotes
    congr 1
    exact trim_wrapped isQuoteChar quotesBefore quotesAfter inner chOpenBrace chCloseBrace
      hq1 hq2 (by decide) (by decide)
  exact ⟨hclean, by rw [hclean]⟩

theorem cleanResponse_unwraps_witness :
    cleanResponse " \t\"'\x7b\"results\":[]\x7d'\" \n" = "\x7b\"results\":[]\x7d" :=
  (cleanResponse_unwraps "\"results\":[]".toList [chDoubleQuote, chSingleQuote]
    [chSingleQuote, chDoubleQuote] [' ', '\t'] [' ', '\n']
    (by decide) (by decide) (by decide) (by decide)).1

/-! ## The fallback reranker: sorting and truncation -/

theorem insertFromRight_perm {α : Type} (less : α → α → Bool) (x : α) (sortedRev : List α) :
    List.Perm (insertFromRight less x sortedRev) (x :: sortedRev) := by
  induction sortedRev with
  | nil => exact List.Perm.refl _
  | cons y ys ih =>
    unfold insertFromRight
    split_ifs
    · exact ((List.Perm.cons y ih).trans (List.Perm.swap x y ys))
    · exact List.Perm.refl _

/-- Inserting into a part whose keys ascend (it is held in reverse) keeps the
keys ascending, for the order "greater key first" of `FastRerank`. -/
theorem insertFromRight_sorted {α : Type} (key : α → ℚ) (x : α) (sortedRev : List α)
    (h : List.Pairwise (fun a b => key a ≤ key b) sortedRev) :
    List.Pairwise (fun a b => key a ≤ key b)
      (insertFromRight (fun a b => decide (key a > key b)) x sortedRev) := by
  induction sortedRev with
  | nil => simp [insertFromRight]
  | cons y ys ih =>
    unfold insertFromRight
    rw [List.pairwise_cons] at h
    by_cases hxy : key x > key y
    · simp only [hxy, decide_True, if_true]
      rw [List.pairwise_cons]
      refine ⟨?_, ih h.2⟩
      intro z hz
      have hz2 := (insertFromRight_perm (fun a b => decide (key a > key b)) x ys).mem_iff.mp hz
      rcases List.mem_cons.mp hz2 with rfl | hz3
      · exact hxy.le
      · exact h.1 z hz3
    · simp only [hxy, decide_False, Bool.false_eq_true, if_false]
      have hle : key x ≤ key y := not_lt.mp hxy
      rw [List.pairwise_cons]
      refine ⟨?_, List.pairwise_cons.mpr h⟩
      intro z hz
      rcases List.mem_cons.mp hz with rfl | hz3
      · exact hle
      · exact hle.trans (h.1 z hz3)

theorem foldl_insertFromRight_perm {α : Type} (less : α → α → Bool) (data sortedRev : List α) :
    List.Perm (data.foldl (fun acc x => insertFromRight less x acc) sortedRev)
      (data.reverse ++ sortedRev) := by
  induction data generalizing sortedRev with
  | nil => exact List.Perm.refl _
  | cons x xs ih =>
    rw [List.foldl_cons, List.reverse_cons, List.append_assoc]
    refine (ih _).trans (List.Perm.append_left _ ?_)
    exact insertFromRight_perm less x sortedRev

theorem foldl_insertFromRight_sorted {α : Type} (key : α → ℚ) (data sortedRev : List α)
    (h : List.Pairwise (fun a b => key a ≤ key b) sortedRev) :
    List.Pairwise (fun a b => key a ≤ key b)
      (data.foldl (fun acc x => insertFromRight (fun a b => decide (key a > key b)) x acc)
        sortedRev) := by
  induction data generalizing sortedRev with
  | nil => exact h
  | cons x xs ih =>
    rw [List.foldl_cons]
    exact ih _ (insertFromRight_sorted key x sortedRev h)

/-- The slice after `sort.Slice` is a permutation of the slice before. -/
theorem sortSlice_perm {α : Type} (less : α → α → Bool) (data : List α) :
    List.Perm (sortSlice less data) data := by
  unfold sortSlice
  refine (List.reverse_perm _).trans ?_
  have := foldl_insertFromRight_perm less data []
  rw [List.append_nil] at this
  exact this.trans (List.reverse_perm _)

/-- The slice after `sort.Slice` with the order "greater key first" has its
keys in non-increasing order. -/
theorem sortSlice_sorted {α : Type} (key : α → ℚ) (data : List α) :
    List.Pairwise (fun a b => key b ≤ key a)
      (sortSlice (fun a b => decide (key a > key b)) data) := by
  unfold sortSlice
  rw [List.pairwise_reverse]
  exact foldl_insertFromRight_sorted key data [] List.Pairwise.nil

/-- C7: for every query and every list of `n` candidates, `FastRerank` returns
exactly `min(n, 3)` results, in non-increasing order of final score, and they
are the top ones: the scored candidates are the returned results together with
a remainder (as a multiset), and no result of the remainder has a score above
that of a returned result. -/
theorem FastRerank_returns_top_three (query : String) (documents : List Document) :
    ∃ out rest, FastRerank query documents = GoResult.ret out
      ∧ out.length = Nat.min documents.length 3
      ∧ List.Pairwise (fun a b : RankedDocument => b.Score ≤ a.Score) out
      ∧ List.Perm (out ++ rest) (scoreDocuments (tokenize query) documents)
      ∧ ∀ r ∈ out, ∀ x ∈ rest, x.Score ≤ r.Score := by
  set scored := scoreDocuments (tokenize query) documents with hscored
  set sorted := sortSlice (fun a b : RankedDocument => decide (a.Score > b.Score)) scored
    with hsorted
  have hperm : List.Perm sorted scored := sortSlice_perm _ scored
  have hpair : List.Pairwise (fun a b : RankedDocument => b.Score ≤ a.Score) sorted :=
    sortSlice_sorted (fun d : RankedDocument => d.Score) scored
  have hlen : sorted.length = documents.length := by
    rw [hperm.length_eq, hscored]
    simp [scoreDocuments]
  have hrun : FastRerank query documents = GoResult.ret (sorted.take 3) := by
    unfold FastRerank
    simp only [← hscored, ← hsorted]
    split_ifs with h3
    · rfl
    · rw [List.take_of_length_le (by omega)]
  have hsplit : sorted.take 3 ++ sorted.drop 3 = sorted := List.take_append_drop 3 sorted
  refine ⟨sorted.take 3, sorted.drop 3, hrun, ?_, ?_, ?_, ?_⟩
  · rw [List.length_take, hlen]
    simp [Nat.min_def]
    split_ifs <;> omega
  · exact hpair.sublist (List.take_sublist 3 sorted)
  · rw [hsplit]
    exact hperm
  · rw [← hsplit, List.pairwise_append] at hpair
    intro r hr x hx
    exact hpair.2.2 r hr x hx

/-! ## The fallback reranker: the keyword score -/

/-- The map built by the loop of lines 291-293 holds exactly the tokens of the
document. -/
theorem foldl_tokenSet (docTokens : List String) (init : String → Bool) (k : String) :
    docTokens.foldl (fun m token => fun k => if k = token then true else m k) init k = true
      ↔ k ∈ docTokens ∨ init k = true := by
  induction docTokens generalizing init with
  | nil => simp
  | cons t ts ih =>
    rw [List.foldl_cons, ih]
    by_cases hk : k = t
    · simp [hk]
    · simp [hk]

theorem docTokenSet_eq_true (docTokens : List String) (k : String) :
    docTokenSet docTokens k = true ↔ k ∈ docTokens := by
  unfold docTokenSet
  rw [foldl_tokenSet]
  simp

/-- The loop of lines 296-300 counts the query tokens the map holds. -/
theorem foldl_matchCount (set : String → Bool) (queryTokens : List String) (start : Nat) :
    queryTokens.foldl (fun n qToken => if set qToken then n + 1 else n) start
      = start + queryTokens.countP set := by
  induction queryTokens generalizing start with
  | nil => simp
  | cons q qs ih =>
    rw [List.foldl_cons, ih, List.countP_cons]
    by_cases hq : set q = true
    · simp [hq]; omega
    · simp [hq]

/-- C8: `calculateKeywordMatch` returns exactly `0.5` when there is no query
token, whatever the content; otherwise it returns the `float64` quotient of the
number of query tokens (with repetition) that are tokens of the content by the
number of query tokens, which below `2^53` tokens is the fraction rounded to
`float64`; the value lies between 0 and 1 inclusive. -/
theorem calculateKeywordMatch_value (queryTokens : List String) (docContent : String) :
    calculateKeywordMatch queryTokens docContent =
      (if queryTokens.length = 0 then 1 / 2
       else f64div
        (f64ofInt (queryTokens.countP (fun q => decide (q ∈ tokenize docContent)) : ℕ))
        (f64ofInt (queryTokens.length : ℕ)))
    ∧ (queryTokens.length ≠ 0 → queryTokens.length < 2 ^ 53 →
        calculateKeywordMatch queryTokens docContent = roundFloat64
          ((queryTokens.countP (fun q => decide (q ∈ tokenize docContent)) : ℚ)
            / (queryTokens.length : ℚ)))
    ∧ 0 ≤ calculateKeywordMatch queryTokens docContent
    ∧ calculateKeywordMatch queryTokens docContent ≤ 1 := by
  have hset : docTokenSet (tokenize docContent)
      = fun q => decide (q ∈ tokenize docContent) := by
    funext q
    rw [Bool.eq_iff_iff, docTokenSet_eq_true]
    simp
  have hval : calculateKeywordMatch queryTokens docContent =
      (if queryTokens.length = 0 then 1 / 2
       else f64div
        (f64ofInt (queryTokens.countP (fun q => decide (q ∈ tokenize docContent)) : ℕ))
        (f64ofInt (queryTokens.length : ℕ))) := by
    unfold calculateKeywordMatch
    split_ifs with h0
    · rfl
    · simp only [foldl_matchCount, hset, Nat.zero_add]
  have hcount : queryTokens.countP (fun q => decide (q ∈ tokenize docContent))
      ≤ queryTokens.length := List.countP_le_length _
  refine ⟨hval, ?_, ?_, ?_⟩
  · intro _ hlt
    rw [hval, if_neg ‹_›, f64ofInt_natCast_of_lt _ hlt,
      f64ofInt_natCast_of_lt _ (lt_of_le_of_lt hcount hlt)]
    rfl
  all_goals
    rw [hval]
    split_ifs with h0
    · norm_num
    · have hpos : 1 ≤ queryTokens.length := Nat.one_le_iff_ne_zero.mpr h0
      have hm0 : (0 : ℚ) ≤ f64ofInt
          (queryTokens.countP (fun q => decide (q ∈ tokenize docContent)) : ℕ) :=
        roundFloat64_nonneg (by exact_mod_cast Nat.zero_le _)
      have hmn : f64ofInt (queryTokens.countP (fun q => decide (q ∈ tokenize docContent)) : ℕ)
          ≤ f64ofInt (queryTokens.length : ℕ) :=
        roundFloat64_mono (by exact_mod_cast hcount)
      have hn1 : (1 : ℚ) ≤ f64ofInt (queryTokens.length : ℕ) := by
        have := roundFloat64_mono (x := 1) (y := ((queryTokens.length : ℕ) : ℤ))
          (by exact_mod_cast hpos)
        rwa [roundFloat64_one] at this
      have hn0 : (0 : ℚ) < f64ofInt (queryTokens.length : ℕ) := lt_of_lt_of_le one_pos hn1
      have hle1 := roundFloat64_mono ((div_le_one hn0).mpr hmn)
      rw [roundFloat64_one] at hle1
      first
        | exact roundFloat64_nonneg (div_nonneg hm0 hn0.le)
        | exact hle1

set_option maxRecDepth 4000 in
theorem calculateKeywordMatch_value_witness :
    calculateKeywordMatch (tokenize "한국의 수도는 어딜까?") "한국의 수도는 서울입니다."
      = roundFloat64 (2 / 3)
    ∧ calculateKeywordMatch (tokenize "?!") "한국의 수도는 서울입니다." = 1 / 2 := by
  have h := (calculateKeywordMatch_value (tokenize "한국의 수도는 어딜까?")
    "한국의 수도는 서울입니다.").2.1 (by decide) (by decide)
  refine ⟨?_, by decide!⟩
  rw [h]
  have hc : (tokenize "한국의 수도는 어딜까?").countP
      (fun q => decide (q ∈ tokenize "한국의 수도는 서울입니다.")) = 2 := by decide
  have hl : (tokenize "한국의 수도는 어딜까?").length = 3 := by decide
  rw [hc, hl]
  norm_num

/-! ## The fallback reranker: the length score -/

set_option maxRecDepth 4000 in
theorem roundFloat64_1001 : roundFloat64 1001 = 1001 := by decide!

set_option maxRecDepth 4000 in
theorem roundFloat64_1001_div_1000 :
    roundFloat64 (1001 / 1000) = 2254051613498933 / 2251799813685248 := by decide!

set_option maxRecDepth 4000 in
theorem roundFloat64_one_sub_1001_div_1000 :
    roundFloat64 (1 - 2254051613498933 / 2251799813685248)
      = -2251799813685 / 2251799813685248 := by decide!

/-- C9: with `L` the number of characters of the content,
`calculateLengthPenalty` returns `1.0` when `50 ≤ L ≤ 200`, the `float64`
quotient `L / 50` when `L < 50`, and the `float64` value of
`1 - (L - 200) / 1000` when `L > 200`; nothing clamps it, and it is negative
when `L > 1200`. -/
theorem calculateLengthPenalty_value (content : String) :
    (50 ≤ content.length ∧ content.length ≤ 200 → calculateLengthPenalty content = 1)
    ∧ (content.length < 50 →
        calculateLengthPenalty content = f64div (content.length : ℚ) 50)
    ∧ (200 < content.length →
        calculateLengthPenalty content
          = f64sub 1 (f64div (f64ofInt ((content.length : ℤ) - 200)) 1000))
    ∧ (1200 < content.length → calculateLengthPenalty content < 0) := by
  have hlong : 200 < content.length → calculateLengthPenalty content
      = f64sub 1 (f64div (f64ofInt ((content.length : ℤ) - 200)) 1000) := by
    intro h
    unfold calculateLengthPenalty
    simp only
    rw [if_neg (by omega), if_neg (by omega)]
  refine ⟨?_, ?_, hlong, ?_⟩
  · intro h
    unfold calculateLengthPenalty
    simp only
    rw [if_pos h]
  · intro h
    unfold calculateLengthPenalty
    simp only
    rw [if_neg (by omega), if_pos h, f64ofInt_natCast_of_lt _ (by omega)]
  · intro h
    rw [hlong (by omega)]
    have hx : (1001 : ℚ) ≤ f64ofInt ((content.length : ℤ) - 200) := by
      have hle : (1001 : ℚ) ≤ (((content.length : ℤ) - 200 : ℤ) : ℚ) := by
        have : (1001 : ℤ) ≤ (content.length : ℤ) - 200 := by omega
        exact_mod_cast this
      have := roundFloat64_mono hle
      rwa [roundFloat64_1001] at this
    have hy : (2254051613498933 / 2251799813685248 : ℚ)
        ≤ f64div (f64ofInt ((content.length : ℤ) - 200)) 1000 := by
      have hle : (1001 / 1000 : ℚ) ≤ f64ofInt ((content.length : ℤ) - 200) / 1000 := by
        linarith
      have := roundFloat64_mono hle
      rwa [roundFloat64_1001_div_1000] at this
    have hz : f64sub 1 (f64div (f64ofInt ((content.length : ℤ) - 200)) 1000)
        ≤ -2251799813685 / 2251799813685248 := by
      have hle : 1 - f64div (f64ofInt ((content.length : ℤ) - 200)) 1000
          ≤ (1 - 2254051613498933 / 2251799813685248 : ℚ) := by linarith
      have := roundFloat64_mono hle
      rwa [roundFloat64_one_sub_1001_div_1000] at this
    have hneg : (-2251799813685 / 2251799813685248 : ℚ) < 0 := by norm_num
    exact lt_of_le_of_lt hz hneg

theorem length_mk_replicate (n : Nat) (c : Char) :
    (String.mk (List.replicate n c)).length = n := by
  simp [String.length]

theorem calculateLengthPenalty_value_witness :
    calculateLengthPenalty (String.mk (List.replicate 50 '가')) = 1
    ∧ calculateLengthPenalty "한국의 수도는 서울입니다." = f64div 14 50
    ∧ calculateLengthPenalty (String.mk (List.replicate 1201 '가')) < 0 :=
  ⟨(calculateLengthPenalty_value (String.mk (List.replicate 50 '가'))).1
     (by rw [length_mk_replicate]; omega),
   (calculateLengthPenalty_value "한국의 수도는 서울입니다.").2.1 (by decide),
   (calculateLengthPenalty_value (String.mk (List.replicate 1201 '가'))).2.2.2
     (by rw [length_mk_replicate]; omega)⟩

/-! ## The prompt: truncation of a candidate -/

set_option maxRecDepth 8000 in
/-- C5, at the failing input: a content of 67 Hangul syllables has 67
characters, fewer than 200, yet the prompt does not show it unchanged:
`truncate` counts its 201 bytes and keeps the first 200, which are 66
syllables followed by the first two bytes of the 67th, and that is what the
line of the candidate in the prompt holds. -/
theorem truncate_cuts_bytes_not_characters :
    hangulContent.length = 67
    ∧ (utf8 hangulContent).length = 201
    ∧ promptContent ⟨1, hangulContent, [], 0⟩ ≠ utf8 hangulContent
    ∧ promptContent ⟨1, hangulContent, [], 0⟩
        = utf8 (String.mk (List.replicate 66 '가')) ++ [234, 176]
    ∧ documentLines 0 [⟨1, hangulContent, [], 0⟩]
        = utf8 "D0 (distance: 1.000): "
          ++ (utf8 (String.mk (List.replicate 66 '가')) ++ [234, 176]) ++ utf8 "\n" := by
  refine ⟨by decide!, by decide!, by decide!, by decide!, by decide!⟩

/-! ## The pipeline handler -/

set_option maxRecDepth 4000 in
/-- C3, at the failing input: the embedding stage returns an error; the
handler writes a response with status 400 and goes on: it calls the search
stage with the nil vector, the rerank stage with the nil candidate list, the
answer stage with the empty ranked list, and writes a second and a third
response. -/
theorem RagChatting_continues_after_failed_stage :
    RagChatting embeddingDownHandler (Except.ok "한국의 수도는 어딜까?") =
      [Event.embed "한국의 수도는 어딜까?",
       Event.respond 400 (Body.error (HandlerError.message
         "failed to send request: connection refused")),
       Event.search [] 3,
       Event.respond 400 (Body.error (HandlerError.message
         "query vector must be 1024 dimensions, got 0")),
       Event.rerank "한국의 수도는 어딜까?" [],
       Event.chat "한국의 수도는 어딜까?" [],
       Event.respond 200 (Body.answer "참고할 문서가 없습니다.")] := by
  decide!

/-! ## The fallback reranker: what a returned document carries -/

set_option maxRecDepth 8000 in
/-- C11, at the failing input: on the three candidates of the scenario
`FastRerank` returns them in input order, and every returned document has
`Index` 0, also the ones that carry the content of candidate 1 and of
candidate 2. -/
theorem FastRerank_leaves_index_zero :
    ∃ out, FastRerank "한국의 수도는 어딜까?" sampleDocuments = GoResult.ret out
      ∧ out.map (fun d => d.Content)
          = ["한국의 수도는 서울입니다.", "한국의 수도는 서울이다.", "테스트입니다."]
      ∧ out.map (fun d => d.Index) = [0, 0, 0] := by
  refine ⟨[⟨0, "한국의 수도는 서울입니다.", 6707361045030459 / 9007199254740992⟩,
           ⟨0, "한국의 수도는 서울이다.", 6599274653973567 / 9007199254740992⟩,
           ⟨0, "테스트입니다.", 4611686018427387 / 72057594037927936⟩], ?_, rfl, rfl⟩
  decide!

/-- What `FastRerank` returns: the first three elements of the scored
candidates after `sort.Slice`. -/
theorem FastRerank_eq (query : String) (documents : List Document) :
    FastRerank query documents = GoResult.ret
      ((sortSlice (fun a b : RankedDocument => decide (a.Score > b.Score))
        (scoreDocuments (tokenize query) documents)).take 3) := by
  unfold FastRerank
  simp only
  split_ifs with h3
  · rfl
  · rw [List.take_of_length_le (by omega)]

/-- C12: `FastRerank` returns, and every document it returns carries the
content of an input candidate `c` and the score
`(1 - c.Distance) * 0.5 + keywordScore * 0.4 + lengthPenalty * 0.1` of line
252, in `float64` arithmetic, where `keywordScore` is
`calculateKeywordMatch` on the tokens of the query and the content of `c` and
`lengthPenalty` is `calculateLengthPenalty` on the content of `c`. -/
theorem FastRerank_scores (query : String) (documents : List Document) :
    ∃ out, FastRerank query documents = GoResult.ret out
      ∧ ∀ d ∈ out, ∃ c ∈ documents, d.Content = c.Content
          ∧ d.Score =
            f64add
              (f64add (f64mul (f64sub 1 c.Distance) (1 / 2))
                (f64mul (calculateKeywordMatch (tokenize query) c.Content)
                  (roundFloat64 (4 / 10))))
              (f64mul (calculateLengthPenalty c.Content) (roundFloat64 (1 / 10))) := by
  refine ⟨_, FastRerank_eq query documents, ?_⟩
  intro d hd
  have hsorted := List.mem_of_mem_take hd
  have hmem : d ∈ scoreDocuments (tokenize query) documents :=
    (sortSlice_perm _ _).mem_iff.mp hsorted
  simp only [scoreDocuments, List.mem_map] at hmem
  obtain ⟨c, hc, rfl⟩ := hmem
  exact ⟨c, hc, rfl, rfl⟩

/-! ## The tokenizer -/

/-- A field under way is closed by the end of the text or by the next
separator: with a non-empty field `cur` under way, `FieldsFunc` yields that
field extended by the run `run` that follows, and then the fields of the
rest. -/
theorem fieldsFuncAux_pending (f : Char → Bool) (cs cur : List Char) (hcur : cur ≠ []) :
    ∃ run rest, cs = run ++ rest ∧ (∀ c ∈ run, f c = false)
      ∧ (∀ c, rest.head? = some c → f c = true)
      ∧ fieldsFuncAux f cs cur = String.mk (cur.reverse ++ run) :: fieldsFuncAux f rest [] := by
  induction cs generalizing cur with
  | nil =>
    refine ⟨[], [], rfl, by simp, by simp, ?_⟩
    cases cur with
    | nil => exact absurd rfl hcur
    | cons x xs => simp [fieldsFuncAux]
  | cons c cs ih =>
    by_cases hc : f c = true
    · refine ⟨[], c :: cs, rfl, by simp, ?_, ?_⟩
      · intro x hx
        simp only [List.head?_cons, Option.some.injEq] at hx
        rw [← hx]
        exact hc
      · cases cur with
        | nil => exact absurd rfl hcur
        | cons x xs => simp [fieldsFuncAux, hc]
    · have hcf : f c = false := by simpa using hc
      obtain ⟨run, rest, hsplit, hrun, hend, heq⟩ := ih (c :: cur) (by simp)
      refine ⟨c :: run, rest, by simp [hsplit], ?_, hend, ?_⟩
      · intro x hx
        rcases List.mem_cons.mp hx with rfl | hx'
        · exact hcf
        · exact hrun x hx'
      · rw [fieldsFuncAux, if_neg hc, heq]
        simp

theorem MaximalRuns.cons_gap {p : Char → Bool} {text : List Char} {runs : List (List Char)}
    (c : Char) (hc : p c = false) (h : MaximalRuns p text runs) :
    MaximalRuns p (c :: text) runs := by
  cases h with
  | done _ hgap =>
    exact MaximalRuns.done (c :: text) (by
      intro x hx
      rcases List.mem_cons.mp hx with rfl | hx'
      · exact hc
      · exact hgap x hx')
  | run gap r rest rs hgap hne hrun hend hrest =>
    have := MaximalRuns.run (c :: gap) r rest rs (by
      intro x hx
      rcases List.mem_cons.mp hx with rfl | hx'
      · exact hc
      · exact hgap x hx') hne hrun hend hrest
    simpa using this

/-- `FieldsFunc` with the separators `!p` yields the maximal runs of `p`. -/
theorem fieldsFuncAux_maximalRuns (p : Char → Bool) (n : Nat) (cs : List Char)
    (hn : cs.length ≤ n) :
    MaximalRuns p cs ((fieldsFuncAux (fun r => !p r) cs []).map String.toList) := by
  induction n generalizing cs with
  | zero =>
    have hnil : cs = [] := List.length_eq_zero.mp (Nat.le_zero.mp hn)
    subst hnil
    exact MaximalRuns.done [] (by simp)
  | succ n ih =>
    cases cs with
    | nil => exact MaximalRuns.done [] (by simp)
    | cons c cs =>
      simp only [List.length_cons, Nat.add_le_add_iff_right] at hn
      by_cases hc : p c = true
      · obtain ⟨run, rest, hsplit, hrun, hend, heq⟩ :=
          fieldsFuncAux_pending (fun r => !p r) cs [c] (by simp)
        have hstep : fieldsFuncAux (fun r => !p r) (c :: cs) []
            = fieldsFuncAux (fun r => !p r) cs [c] := by
          simp [fieldsFuncAux, hc]
        rw [hstep, heq]
        have hlen : rest.length ≤ n := by
          have := congrArg List.length hsplit
          simp at this
          omega
        have hres := MaximalRuns.run [] (c :: run) rest _ (by simp) (by simp)
          (by
            intro x hx
            rcases List.mem_cons.mp hx with rfl | hx'
            · exact hc
            · simpa using hrun x hx')
          (by
            intro x hx
            simpa using hend x hx)
          (ih rest hlen)
        simpa [hsplit] using hres
      · have hcf : p c = false := by simpa using hc
        have hstep : fieldsFuncAux (fun r => !p r) (c :: cs) []
            = fieldsFuncAux (fun r => !p r) cs [] := by
          simp [fieldsFuncAux, hcf]
        rw [hstep]
        exact MaximalRuns.cons_gap c hcf (ih cs hn)

theorem MaximalRuns.runs_nonempty {p : Char → Bool} {text : List Char}
    {runs : List (List Char)} (h : MaximalRuns p text runs) :
    ∀ r ∈ runs, r ≠ [] ∧ ∀ c ∈ r, p c = true := by
  induction h with
  | done gap hgap => simp
  | run gap r rest rs hgap hne hrun hend hrest ih =>
    intro x hx
    rcases List.mem_cons.mp hx with rfl | hx'
    · exact ⟨hne, hrun⟩
    · exact ih x hx'

theorem MaximalRuns.nil_iff {p : Char → Bool} {text : List Char}
    {runs : List (List Char)} (h : MaximalRuns p text runs) :
    runs = [] ↔ ∀ c ∈ text, p c = false := by
  cases h with
  | done _ hgap => exact ⟨fun _ => hgap, fun _ => rfl⟩
  | run gap r rest rs hgap hne hrun hend hrest =>
    constructor
    · intro hnil
      cases hnil
    · intro hall
      exfalso
      obtain ⟨x, xs, hx⟩ := List.exists_cons_of_ne_nil hne
      have h1 : p x = true := hrun x (by simp [hx])
      have h2 : p x = false := hall x (by simp [hx])
      rw [h1] at h2
      cases h2

/-- The maximal runs of a text are determined by the text. -/
theorem MaximalRuns.unique {p : Char → Bool} {text : List Char}
    {runs1 runs2 : List (List Char)} (h1 : MaximalRuns p text runs1)
    (h2 : MaximalRuns p text runs2) : runs1 = runs2 := by
  have hfield := fieldsFuncAux_maximalRuns p text.length text (Nat.le_refl _)
  -- both lists are the one `FieldsFunc` computes
  suffices key : ∀ (n : Nat) (t : List Char) (rs : List (List Char)), t.length ≤ n →
      MaximalRuns p t rs → rs = (fieldsFuncAux (fun r => !p r) t []).map String.toList by
    rw [key text.length text runs1 (Nat.le_refl _) h1, key text.length text runs2 (Nat.le_refl _) h2]
  clear h1 h2 hfield
  intro n
  induction n with
  | zero =>
    intro t rs hlen h
    have hnil : t = [] := List.length_eq_zero.mp (Nat.le_zero.mp hlen)
    subst hnil
    have := h.nil_iff.mpr (by simp)
    simp [this, fieldsFuncAux]
  | succ n ih =>
    intro t rs hlen h
    cases h with
    | done _ hgap =>
      have hf := fieldsFuncAux_maximalRuns p t.length t (Nat.le_refl _)
      exact (hf.nil_iff.mpr hgap).symm
    | run gap r rest rs' hgap hne hrun hend hrest =>
      -- skip the gap
      have hskip : ∀ (g : List Char) (tail : List Char), (∀ c ∈ g, p c = false) →
          fieldsFuncAux (fun r => !p r) (g ++ tail) []
            = fieldsFuncAux (fun r => !p r) tail [] := by
        intro g tail hg
        induction g with
        | nil => rfl
        | cons x xs ihg =>
          have hx : p x = false := hg x (List.mem_cons_self _ _)
          rw [List.cons_append, fieldsFuncAux, if_pos (by simp [hx])]
          simp only [List.isEmpty_nil, if_true]
          exact ihg (fun c hc => hg c (List.mem_cons_of_mem _ hc))
      -- read the run
      have hread : ∀ (run cur : List Char) (tail : List Char), (∀ c ∈ run, p c = true) →
          (∀ c, tail.head? = some c → p c = false) → cur.reverse ++ run ≠ [] →
          fieldsFuncAux (fun r => !p r) (run ++ tail) cur
            = String.mk (cur.reverse ++ run) :: fieldsFuncAux (fun r => !p r) tail [] := by
        intro run
        induction run with
        | nil =>
          intro cur tail _ hend hne
          have hcur : cur ≠ [] := by
            intro hc
            simp [hc] at hne
          cases tail with
          | nil =>
            cases cur with
            | nil => exact absurd rfl hcur
            | cons x xs => simp [fieldsFuncAux]
          | cons y ys =>
            have hy : p y = false := hend y rfl
            cases cur with
            | nil => exact absurd rfl hcur
            | cons x xs => simp [fieldsFuncAux, hy]
        | cons x xs ihr =>
          intro cur tail hrun hend _
          have hx : p x = true := hrun x (List.mem_cons_self _ _)
          rw [List.cons_append, fieldsFuncAux, if_neg (by simp [hx]),
            ihr (x :: cur) tail (fun c hc => hrun c (List.mem_cons_of_mem _ hc)) hend
              (by simp)]
          simp
      rw [List.append_assoc, hskip gap (r ++ rest) hgap, hread r [] rest hrun hend (by simpa using hne)]
      have hlenrest : rest.length ≤ n := by
        have hrpos : 0 < r.length := List.length_pos.mpr hne
        simp only [List.length_append] at hlen
        omega
      rw [ih rest rs' hlenrest hrest]
      simp

/-- The tokens do not depend on what lower-casing does to a character that is
a separator before and after it: any map that agrees with `toLowerRune`
wherever one of the two yields a qualifying character gives the same tokens. -/
theorem tokenize_of_lowering (lower : Char → Char) (text : String)
    (h : ∀ c, (isTokenRune (lower c) = true ∨ isTokenRune (toLowerRune c) = true) →
      lower c = toLowerRune c) :
    fieldsFunc (fun r => !isTokenRune r) (text.toList.map lower) = tokenize text := by
  unfold tokenize fieldsFunc
  simp only
  generalize text.toList = cs
  generalize ([] : List Char) = cur
  induction cs generalizing cur with
  | nil => rfl
  | cons c cs ih =>
    simp only [List.map_cons]
    by_cases hl : isTokenRune (lower c) = true
    · rw [← h c (Or.inl hl)]
      simp only [fieldsFuncAux, hl, Bool.not_true, Bool.false_eq_true, if_false]
      exact ih _
    · have hl' : isTokenRune (lower c) = false := by simpa using hl
      have ht : isTokenRune (toLowerRune c) = false := by
        by_contra hcon
        have hcon' : isTokenRune (toLowerRune c) = true := by simpa using hcon
        rw [h c (Or.inr hcon')] at hl'
        rw [hl'] at hcon'
        cases hcon'
      simp only [fieldsFuncAux, hl', ht, Bool.not_false, if_true]
      split_ifs
      · exact ih _
      · rw [ih _]

theorem char_le_iff (a b : Char) : a ≤ b ↔ a.toNat ≤ b.toNat := Iff.rfl

/-- `toLowerRune` leaves a qualifying character alone. -/
theorem toLowerRune_of_qualifying (c : Char) (h : isTokenRune c = true) : toLowerRune c = c := by
  unfold isTokenRune at h
  unfold toLowerRune
  simp only [Bool.or_eq_true, Bool.and_eq_true, decide_eq_true_eq, char_le_iff] at h
  have hA : ('A' : Char).toNat = 65 := rfl
  have hZ : ('Z' : Char).toNat = 90 := rfl
  have ha : ('a' : Char).toNat = 97 := rfl
  have hz : ('z' : Char).toNat = 122 := rfl
  have h0 : ('0' : Char).toNat = 48 := rfl
  have h9 : ('9' : Char).toNat = 57 := rfl
  have hg : ('가' : Char).toNat = 44032 := rfl
  have hh : ('힣' : Char).toNat = 55203 := rfl
  rw [ha, hz, hg, hh, h0, h9] at h
  have h1 : ¬ ('A' ≤ c ∧ c ≤ 'Z') := by
    rw [char_le_iff, char_le_iff, hA, hZ]
    omega
  have h2 : c.toNat ≠ 0x130 := by omega
  have h3 : c.toNat ≠ 0x212A := by omega
  simp [h1, h2, h3]

/-- `toLowerRune` maps an upper-case ASCII letter to its lower-case letter. -/
theorem toLowerRune_of_upper (c : Char) (h1 : 'A' ≤ c) (h2 : c ≤ 'Z') :
    toLowerRune c = Char.ofNat (c.toNat + 32) := by
  simp [toLowerRune, h1, h2]

set_option maxRecDepth 4000 in
theorem toLowerRune_dotted_I : toLowerRune (Char.ofNat 0x130) = 'i' := by decide

set_option maxRecDepth 4000 in
theorem toLowerRune_kelvin : toLowerRune (Char.ofNat 0x212A) = 'k' := by decide

/-- `toLowerRune` leaves every other character alone. -/
theorem toLowerRune_of_other (c : Char) (hupper : ¬ ('A' ≤ c ∧ c ≤ 'Z'))
    (h130 : c.toNat ≠ 0x130) (h212A : c.toNat ≠ 0x212A) : toLowerRune c = c := by
  simp [toLowerRune, hupper, h130, h212A]

/-- The qualifying characters by code point: `a`-`z` (U+0061 to U+007A), the
digits (U+0030 to U+0039) and the Hangul syllables (U+AC00 to U+D7A3). -/
theorem isTokenRune_iff (c : Char) :
    isTokenRune c = true ↔
      (0x61 ≤ c.toNat ∧ c.toNat ≤ 0x7A) ∨ (0x30 ≤ c.toNat ∧ c.toNat ≤ 0x39)
        ∨ (0xAC00 ≤ c.toNat ∧ c.toNat ≤ 0xD7A3) := by
  unfold isTokenRune
  simp only [Bool.or_eq_true, Bool.and_eq_true, decide_eq_true_eq, char_le_iff]
  have ha : ('a' : Char).toNat = 0x61 := rfl
  have hz : ('z' : Char).toNat = 0x7A := rfl
  have h0 : ('0' : Char).toNat = 0x30 := rfl
  have h9 : ('9' : Char).toNat = 0x39 := rfl
  have hg : ('가' : Char).toNat = 0xAC00 := rfl
  have hh : ('힣' : Char).toNat = 0xD7A3 := rfl
  rw [ha, hz, hg, hh, h0, h9]
  tauto

/-- A lower-casing with the five properties of Unicode lower-casing that
`tokenize` can observe agrees with `toLowerRune` wherever one of the two
yields a qualifying character. -/
theorem lower_agrees_with_toLowerRune (lower : Char → Char)
    (hqual : ∀ c, isTokenRune c = true → lower c = c)
    (hupper : ∀ c, 'A' ≤ c → c ≤ 'Z' → lower c = Char.ofNat (c.toNat + 32))
    (hdotI : lower (Char.ofNat 0x130) = 'i')
    (hkelvin : lower (Char.ofNat 0x212A) = 'k')
    (hrest : ∀ c, isTokenRune c = false → ¬ ('A' ≤ c ∧ c ≤ 'Z') → c.toNat ≠ 0x130 →
      c.toNat ≠ 0x212A → isTokenRune (lower c) = false) :
    ∀ c, (isTokenRune (lower c) = true ∨ isTokenRune (toLowerRune c) = true) →
      lower c = toLowerRune c := by
  intro c hc
  by_cases hU : 'A' ≤ c ∧ c ≤ 'Z'
  · rw [hupper c hU.1 hU.2, toLowerRune_of_upper c hU.1 hU.2]
  · by_cases h130 : c.toNat = 0x130
    · have hceq : c = Char.ofNat 0x130 := by rw [← h130, Char.ofNat_toNat]
      rw [hceq, hdotI, toLowerRune_dotted_I]
    · by_cases h212A : c.toNat = 0x212A
      · have hceq : c = Char.ofNat 0x212A := by rw [← h212A, Char.ofNat_toNat]
        rw [hceq, hkelvin, toLowerRune_kelvin]
      · have hself := toLowerRune_of_other c hU h130 h212A
        rw [hself] at hc ⊢
        by_cases hq : isTokenRune c = true
        · exact hqual c hq
        · have hq' : isTokenRune c = false := by simpa using hq
          have hl := hrest c hq' hU h130 h212A
          rcases hc with h | h
          · rw [hl] at h
            cases h
          · exact absurd h hq

/-- C13: `tokenize` returns, in order, the maximal runs of qualifying
characters (`a`-`z`, `0`-`9`, the Hangul syllables) of the lower-cased text,
for every lower-casing `lower` with the properties of Unicode lower-casing that
bear on qualifying characters: it fixes the qualifying characters, maps `A`-`Z`
to `a`-`z`, the dotted capital I (U+0130) to `i` and the Kelvin sign (U+212A) to
`k`, and maps no other character to a qualifying one.  Every token is non-empty
and holds only qualifying characters, there is no token exactly when the
lower-cased text has no qualifying character, and the qualifying characters
are those with code point U+0061 to U+007A, U+0030 to U+0039 or U+AC00 to
U+D7A3. -/
theorem tokenize_maximal_runs (lower : Char → Char) (text : String)
    (hqual : ∀ c, isTokenRune c = true → lower c = c)
    (hupper : ∀ c, 'A' ≤ c → c ≤ 'Z' → lower c = Char.ofNat (c.toNat + 32))
    (hdotI : lower (Char.ofNat 0x130) = 'i')
    (hkelvin : lower (Char.ofNat 0x212A) = 'k')
    (hrest : ∀ c, isTokenRune c = false → ¬ ('A' ≤ c ∧ c ≤ 'Z') → c.toNat ≠ 0x130 →
      c.toNat ≠ 0x212A → isTokenRune (lower c) = false) :
    MaximalRuns isTokenRune (text.toList.map lower) ((tokenize text).map String.toList)
    ∧ (∀ t ∈ tokenize text, t ≠ "" ∧ ∀ c ∈ t.toList, isTokenRune c = true)
    ∧ (tokenize text = [] ↔ ∀ c ∈ text.toList.map lower, isTokenRune c = false)
    ∧ (∀ c, isTokenRune c = true ↔
        (0x61 ≤ c.toNat ∧ c.toNat ≤ 0x7A) ∨ (0x30 ≤ c.toNat ∧ c.toNat ≤ 0x39)
          ∨ (0xAC00 ≤ c.toNat ∧ c.toNat ≤ 0xD7A3)) := by
  have hsame : fieldsFunc (fun r => !isTokenRune r) (text.toList.map lower) = tokenize text :=
    tokenize_of_lowering lower text
      (lower_agrees_with_toLowerRune lower hqual hupper hdotI hkelvin hrest)
  have hruns : MaximalRuns isTokenRune (text.toList.map lower)
      ((tokenize text).map String.toList) := by
    rw [← hsame]
    exact fieldsFuncAux_maximalRuns isTokenRune _ _ (Nat.le_refl _)
  refine ⟨hruns, ?_, ?_, isTokenRune_iff⟩
  · intro t ht
    have := hruns.runs_nonempty t.toList (List.mem_map_of_mem _ ht)
    refine ⟨?_, this.2⟩
    intro hempty
    apply this.1
    rw [hempty]
    rfl
  · rw [← hruns.nil_iff]
    simp

set_option maxRecDepth 4000 in
theorem tokenize_maximal_runs_witness :
    tokenize sampleMixedCaseText = ["hello", "world", "한국의", "수도는", "k2", "i"]
    ∧ MaximalRuns isTokenRune (sampleMixedCaseText.toList.map toLowerRune)
        ((tokenize sampleMixedCaseText).map String.toList)
    ∧ (∀ t ∈ tokenize sampleMixedCaseText, t ≠ "" ∧ ∀ c ∈ t.toList, isTokenRune c = true) :=
  ⟨by decide,
   (tokenize_maximal_runs toLowerRune sampleMixedCaseText toLowerRune_of_qualifying
      toLowerRune_of_upper toLowerRune_dotted_I toLowerRune_kelvin
      (fun c hq hU h130 h212A => by rw [toLowerRune_of_other c hU h130 h212A]; exact hq)).1,
   (tokenize_maximal_runs toLowerRune sampleMixedCaseText toLowerRune_of_qualifying
      toLowerRune_of_upper toLowerRune_dotted_I toLowerRune_kelvin
      (fun c hq hU h130 h212A => by rw [toLowerRune_of_other c hU h130 h212A]; exact hq)).2.1⟩

/-! ## The model-based reranker: the lookup `documents[index]` -/

theorem indexDocument_eq_none (documents : List Document) (i : Int)
    (h : ¬ (0 ≤ i ∧ i < documents.length)) : indexDocument documents i = none := by
  unfold indexDocument
  split_ifs with h0
  · have hge : documents.length ≤ i.toNat := by
      have : ¬ i < documents.length := fun hlt => h ⟨h0, hlt⟩
      omega
    exact List.getElem?_eq_none hge
  · rfl

/-- The loop of `Rerank` returns the projection of the kept entries when the
index of every kept entry is in range, whatever the indices of the entries it
drops. -/
theorem selectLoop_of_kept_valid (documents : List Document) (results : List RerankEntry)
    (acc : List RankedDocument)
    (hvalid : ∀ e ∈ results, e.Score > scoreThreshold →
      0 ≤ e.Index ∧ e.Index < documents.length) :
    selectLoop documents results acc = GoResult.ret (acc ++ (keptEntries results).map
      (fun e => { Index := e.Index,
                  Content := (documents.getD e.Index.toNat ⟨0, "", [], 0⟩).Content,
                  Score := e.Score })) := by
  induction results generalizing acc with
  | nil => simp [selectLoop, keptEntries]
  | cons e rest ih =>
    have hrest : ∀ x ∈ rest, x.Score > scoreThreshold →
        0 ≤ x.Index ∧ x.Index < documents.length :=
      fun x hx => hvalid x (List.mem_cons_of_mem _ hx)
    unfold selectLoop
    by_cases hs : e.Score > scoreThreshold
    · obtain ⟨h0, h1⟩ := hvalid e (List.mem_cons_self _ _) hs
      obtain ⟨d, hd, -, hget⟩ := indexDocument_of_valid documents e.Index h0 h1
      simp only [hs, if_true, hd]
      rw [ih _ hrest]
      subst hget
      simp [keptEntries, List.filter_cons, hs, List.getD_eq_getElem?_getD]
    · simp only [hs, if_false]
      rw [ih _ hrest]
      simp [keptEntries, List.filter_cons, hs]

/-- The loop of `Rerank` stops with a panic when a kept entry has an index out
of range. -/
theorem selectLoop_panic (documents : List Document) (results : List RerankEntry)
    (acc : List RankedDocument)
    (hbad : ∃ e ∈ results, e.Score > scoreThreshold ∧
      ¬ (0 ≤ e.Index ∧ e.Index < documents.length)) :
    selectLoop documents results acc = GoResult.panic := by
  induction results generalizing acc with
  | nil =>
    obtain ⟨e, he, -⟩ := hbad
    cases he
  | cons e rest ih =>
    obtain ⟨b, hb, hbs, hbi⟩ := hbad
    unfold selectLoop
    by_cases hs : e.Score > scoreThreshold
    · simp only [hs, if_true]
      by_cases hi : 0 ≤ e.Index ∧ e.Index < documents.length
      · obtain ⟨d, hd, -, -⟩ := indexDocument_of_valid documents e.Index hi.1 hi.2
        simp only [hd]
        apply ih
        rcases List.mem_cons.mp hb with rfl | hb'
        · exact absurd hi hbi
        · exact ⟨b, hb', hbs, hbi⟩
      · simp only [indexDocument_eq_none documents e.Index hi]
    · simp only [hs, if_false]
      apply ih
      rcases List.mem_cons.mp hb with rfl | hb'
      · exact absurd hbs hs
      · exact ⟨b, hb', hbs, hbi⟩

/-- C14: when the exchange succeeds and the cleaned response parses, `Rerank`
returns a list exactly when every entry with a score above 0.6 has an index
that is a position of the candidate list, and the list is then the projection
of those entries, whatever the indices of the entries at or below 0.6; no range
check is made, so when some entry above 0.6 has a negative or too large index
(any such entry when there is no candidate) `Rerank` stops with a run-time
panic, returning neither a list nor an error. -/
theorem Rerank_returns_iff_kept_indices_valid (scoring : ScoringCollaborator)
    (content : String) (documents : List Document) (response : String)
    (rerankResult : RerankResult)
    (hreply : scoring (buildPrompt content documents) = Except.ok response)
    (hparse : jsonUnmarshal (cleanResponse response) = Except.ok rerankResult) :
    ((∃ out, Rerank scoring content documents = GoResult.ret out) ↔
        ∀ e ∈ rerankResult.Results, e.Score > 6 / 10 →
          0 ≤ e.Index ∧ e.Index < documents.length)
    ∧ ((∀ e ∈ rerankResult.Results, e.Score > 6 / 10 →
          0 ≤ e.Index ∧ e.Index < documents.length) →
        Rerank scoring content documents =
          GoResult.ret ((rerankResult.Results.filter (fun e => decide (e.Score > 6 / 10))).map
            (fun e => { Index := e.Index,
                        Content := (documents.getD e.Index.toNat ⟨0, "", [], 0⟩).Content,
                        Score := e.Score })))
    ∧ ((∃ e ∈ rerankResult.Results, e.Score > 6 / 10 ∧
          (e.Index < 0 ∨ (documents.length : Int) ≤ e.Index)) →
        Rerank scoring content documents = GoResult.panic)
    ∧ (documents = [] → (∃ e ∈ rerankResult.Results, e.Score > 6 / 10) →
        Rerank scoring content documents = GoResult.panic) := by
  have hfloat := jsonUnmarshal_scores_isFloat64 _ _ hparse
  have hrun := Rerank_of_parsed scoring content documents response rerankResult hreply hparse
  have hgood : (∀ e ∈ rerankResult.Results, e.Score > 6 / 10 →
        0 ≤ e.Index ∧ e.Index < documents.length) →
      Rerank scoring content documents =
        GoResult.ret ((rerankResult.Results.filter (fun e => decide (e.Score > 6 / 10))).map
          (fun e => { Index := e.Index,
                      Content := (documents.getD e.Index.toNat ⟨0, "", [], 0⟩).Content,
                      Score := e.Score })) := by
    intro hvalid
    rw [hrun, selectLoop_of_kept_valid documents rerankResult.Results []
      (fun e he hs => hvalid e he ((gt_scoreThreshold_iff (hfloat e he)).mp hs)),
      keptEntries_eq_filter _ hfloat]
    simp
  have hbad : (∃ e ∈ rerankResult.Results, e.Score > 6 / 10 ∧
        (e.Index < 0 ∨ (documents.length : Int) ≤ e.Index)) →
      Rerank scoring content documents = GoResult.panic := by
    rintro ⟨e, he, hs, hi⟩
    rw [hrun]
    apply selectLoop_panic
    refine ⟨e, he, (gt_scoreThreshold_iff (hfloat e he)).mpr hs, ?_⟩
    rintro ⟨h0, h1⟩
    rcases hi with hneg | hbig
    · omega
    · omega
  refine ⟨⟨?_, fun hvalid => ⟨_, hgood hvalid⟩⟩, hgood, hbad, ?_⟩
  · rintro ⟨out, hout⟩ e he hs
    by_contra hinvalid
    have hpanic := hbad ⟨e, he, hs, by
      by_cases h0 : 0 ≤ e.Index
      · right
        by_contra hlt
        exact hinvalid ⟨h0, by omega⟩
      · left
        omega⟩
    rw [hpanic] at hout
    cases hout
  · rintro hnil ⟨e, he, hs⟩
    apply hbad
    refine ⟨e, he, hs, ?_⟩
    subst hnil
    by_cases h0 : 0 ≤ e.Index
    · right
      simpa using h0
    · left
      omega

set_option maxRecDepth 4000 in
theorem Rerank_returns_iff_kept_indices_valid_witness :
    Rerank (fun _ => Except.ok
        "\x7b\"results\":[\x7b\"index\":0,\"score\":0.9\x7d,\x7b\"index\":7,\"score\":0.2\x7d]\x7d")
      "한국의 수도는 어딜까?" sampleDocuments
      = GoResult.ret [⟨0, "한국의 수도는 서울입니다.", 8106479329266893 / 9007199254740992⟩]
    ∧ Rerank (fun _ => Except.ok
        "\x7b\"results\":[\x7b\"index\":0,\"score\":0.9\x7d,\x7b\"index\":3,\"score\":0.7\x7d]\x7d")
      "한국의 수도는 어딜까?" sampleDocuments = GoResult.panic := by
  constructor
  · have h := (Rerank_returns_iff_kept_indices_valid (fun _ => Except.ok
        "\x7b\"results\":[\x7b\"index\":0,\"score\":0.9\x7d,\x7b\"index\":7,\"score\":0.2\x7d]\x7d")
      "한국의 수도는 어딜까?" sampleDocuments
      "\x7b\"results\":[\x7b\"index\":0,\"score\":0.9\x7d,\x7b\"index\":7,\"score\":0.2\x7d]\x7d"
      ⟨[⟨0, 8106479329266893 / 9007199254740992⟩, ⟨7, 3602879701896397 / 18014398509481984⟩]⟩
      rfl (by decide!)).2.1 (by decide!)
    rw [h]
    decide!
  · exact (Rerank_returns_iff_kept_indices_valid (fun _ => Except.ok
        "\x7b\"results\":[\x7b\"index\":0,\"score\":0.9\x7d,\x7b\"index\":3,\"score\":0.7\x7d]\x7d")
      "한국의 수도는 어딜까?" sampleDocuments
      "\x7b\"results\":[\x7b\"index\":0,\"score\":0.9\x7d,\x7b\"index\":3,\"score\":0.7\x7d]\x7d"
      ⟨[⟨0, 8106479329266893 / 9007199254740992⟩, ⟨3, 3152519739159347 / 4503599627370496⟩]⟩
      rfl (by decide!)).2.2.1 ⟨⟨3, 3152519739159347 / 4503599627370496⟩, by decide!, by decide!,
        Or.inr (by decide!)⟩

end RagChatbot
